import Mathlib

/-!
# create-project.js : a shallow embedding

The generator script `create-project.js` validates its command line, looks the
template up in a fixed registry, copies the template tree (skipping build and
dependency directories) and runs an optional setup script.

The embedding has four layers:

* a fragment of ECMAScript regular expressions, enough for `/^[a-z][a-z0-9-]*$/`;
* a file system of directories and regular files with the `fs` calls the
  script makes (`mkdirSync`, `readdirSync`, `copyFileSync`, `existsSync`);
* POSIX `path.join`, `path.resolve` and `path.relative` on normalised paths;
* the process: console output, working directory, `process.exit`, uncaught
  exceptions and the child process started by `execSync`.

Strings are sequences of Unicode scalar values.  The script only compares
characters with ASCII ranges and ASCII literals, so the difference with
UTF-16 code units is not observable.
-/

namespace CreateProject

/-! ## Regular expressions -/

/-- One term of a pattern: an assertion, a character class, or a starred class. -/
inductive Term where
  | assertBegin
  | assertEnd
  | atom (cls : List (Char × Char))
  | atomStar (cls : List (Char × Char))
  deriving DecidableEq, Repr

/-- Membership of a character in a class given as a list of inclusive ranges. -/
def inClass (cls : List (Char × Char)) (c : Char) : Bool :=
  cls.any (fun r => decide (r.1.toNat ≤ c.toNat) && decide (c.toNat ≤ r.2.toNat))

/-- Greedy iteration of a class, then the continuation `k`. -/
def starLoop (cls : List (Char × Char)) (k : Bool → List Char → Bool) :
    Bool → List Char → Bool
  | st, [] => k st []
  | st, c :: cs => (inClass cls c && starLoop cls k false cs) || k st (c :: cs)

/-- Backtracking match of a pattern at the current position; `st` tells whether
the position is the start of the input. -/
def matchHere : List Term → Bool → List Char → Bool
  | [], _, _ => true
  | Term.assertBegin :: p, st, s => st && matchHere p st s
  | Term.assertEnd :: p, st, s => s.isEmpty && matchHere p st s
  | Term.atom cls :: p, _, s =>
      match s with
      | [] => false
      | c :: cs => inClass cls c && matchHere p false cs
  | Term.atomStar cls :: p, st, s => starLoop cls (matchHere p) st s

/-- Search for a match starting at any position of the input. -/
def searchFrom (p : List Term) : Bool → List Char → Bool
  | st, [] => matchHere p st []
  | st, c :: cs => matchHere p st (c :: cs) || searchFrom p false cs

/-- The method `RegExp.prototype.test`. -/
def regexTest (p : List Term) (s : String) : Bool :=
  searchFrom p true s.toList

/-- The pattern `/^[a-z][a-z0-9-]*$/` of `validateProjectName`. -/
def validPattern : List Term :=
  [Term.assertBegin, Term.atom [('a', 'z')],
   Term.atomStar [('a', 'z'), ('0', '9'), ('-', '-')], Term.assertEnd]

/-! ## File system -/

/-- A path is the list of its components below the root. -/
abbrev Path := List String

/-- The entries of a directory, in directory order.  A regular file carries
its bytes; a directory carries its own entries. -/
inductive Tree where
  | nil
  | file (name : String) (content : List UInt8) (rest : Tree)
  | dir (name : String) (sub : Tree) (rest : Tree)
  deriving DecidableEq, Repr

/-- What a path can denote. -/
inductive Node where
  | file (content : List UInt8)
  | dir (entries : Tree)
  deriving DecidableEq, Repr

/-- Error codes of the `fs` calls. -/
inductive IOError where
  | ENOENT
  | ENOTDIR
  | EEXIST
  | EISDIR
  deriving DecidableEq, Repr

namespace Tree

/-- Put an entry in front of a directory listing. -/
def cons (n : String) : Node → Tree → Tree
  | Node.file c, rest => Tree.file n c rest
  | Node.dir sub, rest => Tree.dir n sub rest

/-- Concatenation of directory listings. -/
def append : Tree → Tree → Tree
  | nil, t => t
  | file n c rest, t => file n c (append rest t)
  | dir n sub rest, t => dir n sub (append rest t)

/-- The entry called `n`, if any. -/
def find (n : String) : Tree → Option Node
  | nil => none
  | file m c rest => if m = n then some (Node.file c) else find n rest
  | dir m sub rest => if m = n then some (Node.dir sub) else find n rest

/-- Rewrite the entry called `n` with `f`; a missing entry is appended when `f`
produces one. -/
def update (n : String) (f : Option Node → Except IOError Node) : Tree → Except IOError Tree
  | nil =>
      match f none with
      | Except.ok x => Except.ok (cons n x nil)
      | Except.error e => Except.error e
  | file m c rest =>
      if m = n then
        match f (some (Node.file c)) with
        | Except.ok x => Except.ok (cons n x rest)
        | Except.error e => Except.error e
      else
        match update n f rest with
        | Except.ok r => Except.ok (file m c r)
        | Except.error e => Except.error e
  | dir m sub rest =>
      if m = n then
        match f (some (Node.dir sub)) with
        | Except.ok x => Except.ok (cons n x rest)
        | Except.error e => Except.error e
      else
        match update n f rest with
        | Except.ok r => Except.ok (dir m sub r)
        | Except.error e => Except.error e

/-- The names of the entries. -/
def names : Tree → List String
  | nil => []
  | file n _ rest => n :: names rest
  | dir n _ rest => n :: names rest

/-- Nesting depth of a directory listing. -/
def depth : Tree → Nat
  | nil => 0
  | file _ _ rest => max 1 (depth rest)
  | dir _ sub rest => max (depth sub + 1) (depth rest)

/-- Entry names are pairwise distinct in every directory. -/
def Distinct : Tree → Prop
  | nil => True
  | file n _ rest => n ∉ names rest ∧ Distinct rest
  | dir n sub rest => n ∉ names rest ∧ Distinct sub ∧ Distinct rest

end Tree

/-- A directory entry as `readdirSync` returns it with `withFileTypes`. -/
structure Dirent where
  name : String
  isDirectory : Bool
  deriving DecidableEq, Repr

/-- The listing of a directory. -/
def Tree.entries : Tree → List Dirent
  | Tree.nil => []
  | Tree.file n _ rest => ⟨n, false⟩ :: Tree.entries rest
  | Tree.dir n _ rest => ⟨n, true⟩ :: Tree.entries rest

/-- Resolution of a path from the root listing. -/
def lookup : Path → Tree → Option Node
  | [], t => some (Node.dir t)
  | n :: p, t =>
      match t.find n with
      | none => none
      | some (Node.dir sub) => lookup p sub
      | some (Node.file c) =>
          match p with
          | [] => some (Node.file c)
          | _ :: _ => none

/-- The call `fs.existsSync`. -/
def existsSync (p : Path) (fs : Tree) : Bool :=
  (lookup p fs).isSome

/-- Some ancestor of the path (or the path itself) is a regular file, so that
nothing can exist or be created below it. -/
def blocked (D : Path) (fs : Tree) : Bool :=
  D.inits.any (fun p =>
    match lookup p fs with
    | some (Node.file _) => true
    | _ => false)

/-- Whether the path is a directory. -/
def isDirectory (p : Path) (fs : Tree) : Bool :=
  match lookup p fs with
  | some (Node.dir _) => true
  | _ => false

/-- The error for a path that does not resolve: `ENOTDIR` when it passes through
a regular file, `ENOENT` otherwise. -/
def notFound (p : Path) (fs : Tree) : IOError :=
  if blocked p fs then IOError.ENOTDIR else IOError.ENOENT

/-- The name of an error code, as the message of the exception. -/
def IOError.code : IOError → String
  | IOError.ENOENT => "ENOENT"
  | IOError.ENOTDIR => "ENOTDIR"
  | IOError.EEXIST => "EEXIST"
  | IOError.EISDIR => "EISDIR"

/-- The call `fs.mkdirSync(p, { recursive: true })`. -/
def mkdirSync : Path → Tree → Except IOError Tree
  | [], t => Except.ok t
  | n :: p, t =>
      t.update n (fun o =>
        match o with
        | none =>
            match mkdirSync p Tree.nil with
            | Except.ok s => Except.ok (Node.dir s)
            | Except.error e => Except.error e
        | some (Node.dir sub) =>
            match mkdirSync p sub with
            | Except.ok s => Except.ok (Node.dir s)
            | Except.error e => Except.error e
        | some (Node.file _) =>
            match p with
            | [] => Except.error IOError.EEXIST
            | _ :: _ => Except.error IOError.ENOTDIR)

/-- The call `fs.readdirSync(p, { withFileTypes: true })`. -/
def readdirSync (p : Path) (fs : Tree) : Except IOError (List Dirent) :=
  match lookup p fs with
  | none => Except.error (notFound p fs)
  | some (Node.file _) => Except.error IOError.ENOTDIR
  | some (Node.dir t) => Except.ok t.entries

/-- Create or overwrite the regular file at a path. -/
def writeFile (c : List UInt8) : Path → Tree → Except IOError Tree
  | [], _ => Except.error IOError.EISDIR
  | n :: [], t =>
      t.update n (fun o =>
        match o with
        | some (Node.dir _) => Except.error IOError.EISDIR
        | _ => Except.ok (Node.file c))
  | n :: m :: q, t =>
      t.update n (fun o =>
        match o with
        | none => Except.error IOError.ENOENT
        | some (Node.file _) => Except.error IOError.ENOTDIR
        | some (Node.dir sub) =>
            match writeFile c (m :: q) sub with
            | Except.ok s => Except.ok (Node.dir s)
            | Except.error e => Except.error e)

/-- The call `fs.copyFileSync(src, dest)`. -/
def copyFileSync (src dest : Path) (fs : Tree) : Except IOError Tree :=
  match lookup src fs with
  | none => Except.error (notFound src fs)
  | some (Node.dir _) => Except.error IOError.EISDIR
  | some (Node.file c) => writeFile c dest fs

/-! ## copyDir -/

/-- The names `copyDir` skips. -/
def excludedNames : List String :=
  ["node_modules", "__pycache__", "venv", ".git", "dist", "build"]

/-- How a call of `copyDir` ends: normally, or with an exception; either way the
file system it leaves behind. -/
inductive CopyResult where
  | done (fs : Tree)
  | threw (e : IOError) (fs : Tree)
  deriving DecidableEq, Repr

/-- The file system a call leaves behind. -/
def CopyResult.fs : CopyResult → Tree
  | CopyResult.done fs => fs
  | CopyResult.threw _ fs => fs

/-- The `for` loop of `copyDir` over the listing, with the recursive call `self`. -/
def copyEntries (self : Path → Path → Tree → Option CopyResult) (src dest : Path) :
    List Dirent → Tree → Option CopyResult
  | [], fs => some (CopyResult.done fs)
  | entry :: rest, fs =>
      let srcPath := src ++ [entry.name]
      let destPath := dest ++ [entry.name]
      if entry.name ∈ excludedNames then
        copyEntries self src dest rest fs
      else if entry.isDirectory then
        match self srcPath destPath fs with
        | none => none
        | some (CopyResult.threw e fs1) => some (CopyResult.threw e fs1)
        | some (CopyResult.done fs1) => copyEntries self src dest rest fs1
      else
        match copyFileSync srcPath destPath fs with
        | Except.error e => some (CopyResult.threw e fs)
        | Except.ok fs1 => copyEntries self src dest rest fs1

/-- The function `copyDir`; `none` when the recursion is deeper than `fuel`. -/
def copyDir : Nat → Path → Path → Tree → Option CopyResult
  | 0, _, _, _ => none
  | fuel + 1, src, dest, fs =>
      match mkdirSync dest fs with
      | Except.error e => some (CopyResult.threw e fs)
      | Except.ok fs1 =>
          match readdirSync src fs1 with
          | Except.error e => some (CopyResult.threw e fs1)
          | Except.ok entries => copyEntries (copyDir fuel) src dest entries fs1

/-! ## Paths -/

/-- Split a character sequence at every occurrence of a separator, as
`String.prototype.split` does. -/
def splitOn (sep : Char) : List Char → List (List Char)
  | [] => [[]]
  | c :: cs =>
      if c = sep then [] :: splitOn sep cs
      else
        match splitOn sep cs with
        | [] => [[c]]
        | h :: t => (c :: h) :: t

/-- The slash-separated segments of a path string. -/
def segments (s : String) : List String :=
  (splitOn '/' s.toList).map String.mk

/-- Normalisation step: empty and `.` segments vanish, `..` drops a component. -/
def applySegment (acc : Path) (seg : String) : Path :=
  if seg = "" ∨ seg = "." then acc
  else if seg = ".." then acc.dropLast
  else acc ++ [seg]

/-- Whether a path string is absolute. -/
def isAbsolute (s : String) : Bool :=
  s.toList.head? = some '/'

/-- The call `path.join(base, rel)` for a normalised absolute `base`. -/
def pathJoin (base : Path) (rel : String) : Path :=
  (segments rel).foldl applySegment base

/-- The call `path.resolve(a, b)` in working directory `cwd`. -/
def pathResolve (cwd : Path) (a b : String) : Path :=
  if isAbsolute b then (segments b).foldl applySegment []
  else if isAbsolute a then (segments a ++ segments b).foldl applySegment []
  else (segments a ++ segments b).foldl applySegment cwd

/-- Length of the longest common prefix of two paths. -/
def commonLength : Path → Path → Nat
  | a :: p, b :: q => if a = b then commonLength p q + 1 else 0
  | _, _ => 0

/-- The call `path.relative(src, dst)` on normalised absolute paths. -/
def pathRelative (src dst : Path) : String :=
  let k := commonLength src dst
  "/".intercalate (List.replicate (src.length - k) ".." ++ dst.drop k)

/-- An absolute path as a string. -/
def pathToString (p : Path) : String :=
  "/" ++ "/".intercalate p

/-! ## The process -/

/-- What the process does that an observer can see. -/
inductive Event where
  | log (line : String)
  | chdir (dir : Path)
  | exec (command : String) (cwd : Path)
  | copy (src dest : Path)
  deriving DecidableEq, Repr

/-- The state of the process: file system, working directory and what happened so far. -/
structure Proc where
  fs : Tree
  cwd : Path
  trace : List Event
  deriving DecidableEq, Repr

/-- The process after a call that changed the files only. -/
def Proc.setFs (w : Proc) (fs : Tree) : Proc :=
  ⟨fs, w.cwd, w.trace⟩

/-- How a piece of the script ends. -/
inductive Step (α : Type) where
  | ok (a : α) (w : Proc)
  | exit (code : Nat) (w : Proc)
  | uncaught (error : String) (w : Proc)
  | timeout
  deriving Repr

/-- The exit code of the process; an uncaught exception makes Node exit with 1. -/
def Step.exitCode {α : Type} : Step α → Option Nat
  | Step.ok _ _ => some 0
  | Step.exit code _ => some code
  | Step.uncaught _ _ => some 1
  | Step.timeout => none

/-- The final state of the process, when it ends. -/
def Step.proc {α : Type} : Step α → Option Proc
  | Step.ok _ w => some w
  | Step.exit _ w => some w
  | Step.uncaught _ w => some w
  | Step.timeout => none

/-- How the child process of `execSync` ends. -/
inductive ExecResult where
  | success
  | nonZero (status : Nat)
  | spawnError
  deriving DecidableEq, Repr

/-- What the script does not determine: where it is installed, and what a
command does when run in a directory. -/
structure Env where
  rootDir : Path
  run : String → Path → Tree → ExecResult × Tree

/-- The table `colors`. -/
def colors (color : String) : String :=
  if color = "reset" then "\x1b[0m"
  else if color = "green" then "\x1b[32m"
  else if color = "yellow" then "\x1b[33m"
  else if color = "blue" then "\x1b[34m"
  else if color = "red" then "\x1b[31m"
  else if color = "cyan" then "\x1b[36m"
  else "undefined"

/-- The function `log`. -/
def log (message color : String) (w : Proc) : Proc :=
  { w with trace := w.trace ++ [Event.log (colors color ++ message ++ colors "reset")] }

/-- The method `String.prototype.repeat`. -/
def strRepeat (s : String) (n : Nat) : String :=
  String.join (List.replicate n s)

/-- The lines `showHelp` prints, with their colors. -/
def helpLines : List (String × String) :=
  [("\n📦 Betagro Project Generator", "cyan"),
   (strRepeat "─" 50, "cyan"),
   ("\nUsage:", "yellow"),
   ("  node create-project.js <template-type> <project-name> [destination]\n", "reset"),
   ("Available Templates:", "yellow"),
   ("  backend-node    Node.js Backend (Express + TypeScript + Prisma)", "green"),
   ("  backend-python  Python Backend (FastAPI + Uvicorn)", "green"),
   ("  frontend        React Frontend (Vite + TypeScript + Redux)", "green"),
   ("\nExamples:", "yellow"),
   ("  node create-project.js backend-node my-api", "reset"),
   ("  node create-project.js frontend my-app ./projects", "reset"),
   ("  node create-project.js backend-python ml-service ../other-folder\n", "reset"),
   ("Documentation:", "yellow"),
   ("  See standards/07-approved-templates.md for template details\n", "reset")]

/-- Print lines one after the other. -/
def logAll (lines : List (String × String)) (w : Proc) : Proc :=
  lines.foldl (fun acc l => log l.1 l.2 acc) w

/-- The function `showHelp`. -/
def showHelp (w : Proc) : Proc :=
  logAll helpLines w

/-- An entry of the template registry. -/
structure Template where
  source : String
  name : String
  setupScript : String
  deriving DecidableEq, Repr

/-- The object literal `TEMPLATES`: its own properties, in order. -/
def TEMPLATES : List (String × Template) :=
  [("backend-node",
      ⟨"Backend_nodejs-Template/Backend_nodejs-Template", "Node.js Backend",
       "scripts/setup-project.js"⟩),
   ("backend-python",
      ⟨"Backend_python-Template", "Python Backend", "scripts/setup_project.py"⟩),
   ("frontend",
      ⟨"Frontend-Template/Frontend-Template", "React Frontend", "scripts/setup-project.js"⟩)]

/-- The property names every object literal inherits from `Object.prototype`. -/
def objectPrototypeKeys : List String :=
  ["constructor", "__defineGetter__", "__defineSetter__", "hasOwnProperty",
   "__lookupGetter__", "__lookupSetter__", "isPrototypeOf", "propertyIsEnumerable",
   "toString", "valueOf", "__proto__", "toLocaleString"]

/-- The value of a property access `TEMPLATES[key]`. -/
inductive JSValue where
  | undefined
  | template (t : Template)
  | inherited (key : String)
  deriving DecidableEq, Repr

/-- Property access on an object literal: own properties first, then the
prototype chain, which ends at `Object.prototype`. -/
def getProperty (obj : List (String × Template)) (key : String) : JSValue :=
  match obj.lookup key with
  | some t => JSValue.template t
  | none => if key ∈ objectPrototypeKeys then JSValue.inherited key else JSValue.undefined

/-- The lines `validateProjectName` prints for a name it rejects. -/
def nameRuleLines : List (String × String) :=
  [("❌ Project name must:", "red"),
   ("   - Start with a lowercase letter", "red"),
   ("   - Contain only lowercase letters, numbers, and hyphens", "red"),
   ("   - Example: my-awesome-project", "yellow")]

/-- The function `validateProjectName`. -/
def validateProjectName (name : String) (w : Proc) : Step String :=
  if !regexTest validPattern name then Step.exit 1 (logAll nameRuleLines w)
  else Step.ok name w

/-- The lines `main` prints for a template type it does not know: the message,
then one line for each key of `TEMPLATES`. -/
def unknownTemplateLines (templateType : String) : List (String × String) :=
  [("❌ Unknown template type: " ++ templateType, "red"),
   ("\nAvailable templates:", "yellow")] ++
  TEMPLATES.map (fun t => ("  - " ++ t.1 ++ ": " ++ t.2.name, "green"))

/-- The message of the `TypeError` that `path.join` throws for an argument that
is not a string. -/
def pathTypeError : String :=
  "TypeError [ERR_INVALID_ARG_TYPE]: The \"path\" argument must be of type string. Received undefined"

/-- The method `String.prototype.endsWith`. -/
def endsWith (s suffix : String) : Bool :=
  suffix.toList.isSuffixOf s.toList

/-- The command line handed to `execSync` for the setup script. -/
def setupCommand (template : Template) (projectName : String) : String :=
  if endsWith template.setupScript ".py" then
    "python " ++ template.setupScript ++ " " ++ projectName
  else
    "node " ++ template.setupScript ++ " " ++ projectName

/-- The call `process.chdir`: it throws unless the path is a directory. -/
def chdir (dir : Path) (w : Proc) : Except IOError Proc :=
  match lookup dir w.fs with
  | some (Node.dir _) => Except.ok ⟨w.fs, dir, w.trace ++ [Event.chdir dir]⟩
  | some (Node.file _) => Except.error IOError.ENOTDIR
  | none => Except.error (notFound dir w.fs)

/-- The call `execSync(command, { stdio: 'inherit' })`: the child runs in the
working directory of the process; the result tells whether `execSync` returns
or throws. -/
def execSync (env : Env) (command : String) (w : Proc) : ExecResult × Proc :=
  let r := env.run command w.cwd w.fs
  (r.1, { w with fs := r.2, trace := w.trace ++ [Event.exec command w.cwd] })

/-- The warning `main` prints when the setup script fails. -/
def setupWarning : String × String :=
  ("⚠️ Setup script encountered issues (may need manual configuration)", "yellow")

/-- The `try` / `catch` around `execSync` in the setup step: a command that fails
is answered by the warning. -/
def tryExec (env : Env) (command : String) (w : Proc) : Proc :=
  let r := execSync env command w
  match r.1 with
  | ExecResult.success => r.2
  | _ => log setupWarning.1 setupWarning.2 r.2

/-- The setup step of `main`: the body of `if (fs.existsSync(setupScriptPath))`.
The two calls of `process.chdir` are outside the `try`, so what they throw is
not caught. -/
def runSetup (env : Env) (template : Template) (projectName : String) (destPath : Path)
    (w : Proc) : Step Unit :=
  let w1 := log "  🔧 Running setup script..." "cyan" w
  let originalDir := w1.cwd
  match chdir destPath w1 with
  | Except.error e => Step.uncaught e.code w1
  | Except.ok w2 =>
      let w3 := tryExec env (setupCommand template projectName) w2
      match chdir originalDir w3 with
      | Except.error e => Step.uncaught e.code w3
      | Except.ok w4 => Step.ok () w4

/-- The next steps `main` prints for a template type. -/
def nextSteps (templateType : String) : List (String × String) :=
  if templateType = "backend-node" then
    [("  2. npm install", "reset"),
     ("  3. Update .env with your configuration", "reset"),
     ("  4. npm run prisma:generate", "reset"),
     ("  5. npm run migrate:up", "reset"),
     ("  6. npm run dev", "reset")]
  else if templateType = "backend-python" then
    [("  2. python -m venv venv", "reset"),
     ("  3. source venv/bin/activate  # or venv\\Scripts\\activate on Windows", "reset"),
     ("  4. pip install -r requirements.txt", "reset"),
     ("  5. Update .env with your configuration", "reset"),
     ("  6. python -m uvicorn app.main:app --reload", "reset")]
  else if templateType = "frontend" then
    [("  2. npm install", "reset"),
     ("  3. Update env/.dev.env and public/config.js", "reset"),
     ("  4. npm run start:dev", "reset")]
  else []

/-- The closing lines of `main`, from the success message on. -/
def successLines (templateType projectName : String) (cwd destPath : Path) :
    List (String × String) :=
  [(strRepeat "\n─" 50, "blue"),
   ("✅ Project \"" ++ projectName ++ "\" created successfully!", "green"),
   ("\n📍 Location: " ++ pathToString destPath, "cyan"),
   ("\n📋 Next steps:", "yellow"),
   ("  1. cd " ++
      (if pathRelative cwd destPath = "" then projectName else pathRelative cwd destPath),
    "reset")]
  ++ nextSteps templateType ++
  [("\n📚 Documentation:", "yellow"),
   ("  - See TEMPLATE_README.md in project folder", "reset"),
   ("  - See standards/07-approved-templates.md for full details", "reset"),
   ("\n", "reset")]

/-- The announcement before the copy, and the call of `copyDir` as an event. -/
def announceCopy (template : Template) (projectName : String) (sourcePath destPath : Path)
    (w : Proc) : Proc :=
  let w1 :=
    logAll
      [("\n🚀 Creating " ++ template.name ++ " project: " ++ projectName, "blue"),
       (strRepeat "─" 50, "blue"),
       ("  📁 Copying template from " ++ template.source ++ "...", "cyan")] w
  { w1 with trace := w1.trace ++ [Event.copy sourcePath destPath] }

/-- The closing messages of `main`, after the setup step. -/
def closing (templateType projectName : String) (destPath : Path) (w : Proc) : Proc :=
  logAll (successLines templateType projectName w.cwd destPath) w

/-- What `main` does once `copyDir` has returned: the setup step when the setup
script exists, then the closing messages. -/
def afterCopy (env : Env) (templateType projectName : String) (template : Template)
    (destPath : Path) (w : Proc) : Step Unit :=
  let w1 := log ("  ✓ Template copied to " ++ pathToString destPath) "green" w
  let setupScriptPath := pathJoin destPath template.setupScript
  if existsSync setupScriptPath w1.fs then
    match runSetup env template projectName destPath w1 with
    | Step.ok _ w2 => Step.ok () (closing templateType projectName destPath w2)
    | Step.exit code w2 => Step.exit code w2
    | Step.uncaught e w2 => Step.uncaught e w2
    | Step.timeout => Step.timeout
  else Step.ok () (closing templateType projectName destPath w1)

/-- The part of `main` after the template lookup: path resolution, the two
existence checks, the copy, the setup step and the closing messages. -/
def materialize (env : Env) (fuel : Nat) (templateType projectName destination : String)
    (template : Template) (w : Proc) : Step Unit :=
  let rootDir := env.rootDir
  let sourcePath := pathJoin rootDir template.source
  let destPath := pathResolve w.cwd destination projectName
  if !existsSync sourcePath w.fs then
    Step.exit 1 (log ("❌ Template source not found: " ++ pathToString sourcePath) "red" w)
  else if existsSync destPath w.fs then
    Step.exit 1 (log ("❌ Destination already exists: " ++ pathToString destPath) "red" w)
  else
    let w1 := announceCopy template projectName sourcePath destPath w
    match copyDir fuel sourcePath destPath w1.fs with
    | none => Step.timeout
    | some (CopyResult.threw e fs1) => Step.uncaught e.code (w1.setFs fs1)
    | some (CopyResult.done fs1) =>
        afterCopy env templateType projectName template destPath (w1.setFs fs1)

/-- The expression `args[2] || '.'`, on the arguments after the project name. -/
def destinationOf (rest : List String) : String :=
  match rest with
  | [] => "."
  | d :: _ => if d = "" then "." else d

/-- The function `main`, on the arguments after the script name. -/
def main (env : Env) (fuel : Nat) (args : List String) (w : Proc) : Step Unit :=
  match args with
  | [] => Step.exit 0 (showHelp w)
  | templateType :: rest =>
      if templateType = "--help" ∨ templateType = "-h" then Step.exit 0 (showHelp w)
      else
        match rest with
        | [] => Step.exit 1 (showHelp (log "❌ Missing arguments" "red" w))
        | name :: rest2 =>
            match validateProjectName name w with
            | Step.exit code w1 => Step.exit code w1
            | Step.uncaught e w1 => Step.uncaught e w1
            | Step.timeout => Step.timeout
            | Step.ok projectName w1 =>
                let destination := destinationOf rest2
                match getProperty TEMPLATES templateType with
                | JSValue.undefined => Step.exit 1 (logAll (unknownTemplateLines templateType) w1)
                | JSValue.inherited _ => Step.uncaught pathTypeError w1
                | JSValue.template template =>
                    materialize env fuel templateType projectName destination template w1

/-! ## Notions of the specification -/

/-- The naming rule in the words of the specification: a lowercase ASCII letter
followed by zero or more lowercase ASCII letters, digits or hyphens, over the
whole string. -/
def matchesNamePattern (s : String) : Bool :=
  match s.toList with
  | [] => false
  | c :: cs => c.isLower && cs.all (fun d => d.isLower || d.isDigit || d == '-')

/-- The source tree with every entry whose name is excluded removed, at every depth. -/
def Tree.prune : Tree → Tree
  | Tree.nil => Tree.nil
  | Tree.file n c rest =>
      if n ∈ excludedNames then Tree.prune rest else Tree.file n c (Tree.prune rest)
  | Tree.dir n sub rest =>
      if n ∈ excludedNames then Tree.prune rest
      else Tree.dir n (Tree.prune sub) (Tree.prune rest)

/-- No entry of the tree, at any depth, has an excluded name. -/
def Tree.Clean : Tree → Prop
  | Tree.nil => True
  | Tree.file n _ rest => n ∉ excludedNames ∧ Tree.Clean rest
  | Tree.dir n sub rest => n ∉ excludedNames ∧ Tree.Clean sub ∧ Tree.Clean rest

/-- A node is clean when it is a file or a clean directory. -/
def Node.Clean : Node → Prop
  | Node.file _ => True
  | Node.dir t => t.Clean

/-- Nesting depth below a node. -/
def Node.depth : Node → Nat
  | Node.file _ => 0
  | Node.dir t => t.depth

/-- Two paths part ways: neither is a prefix of the other. -/
def Diverge (p q : Path) : Prop :=
  ¬ p <+: q ∧ ¬ q <+: p

/-- Replace the first entry called `n` by the node `y`. -/
def Tree.replace (n : String) (y : Node) : Tree → Tree
  | Tree.nil => Tree.nil
  | Tree.file m c rest =>
      if m = n then Tree.cons n y rest else Tree.file m c (Tree.replace n y rest)
  | Tree.dir m sub rest =>
      if m = n then Tree.cons n y rest else Tree.dir m sub (Tree.replace n y rest)

/-- Replace the listing of the directory at a path; nothing changes when the
path is not a directory. -/
def put : Path → Tree → Tree → Tree
  | [], new, _ => new
  | n :: p, new, fs =>
      match fs.find n with
      | some (Node.dir sub) => fs.replace n (Node.dir (put p new sub))
      | _ => fs

/-- Pruning below a node: a file is kept as it is, a directory is pruned. -/
def Node.prune : Node → Node
  | Node.file c => Node.file c
  | Node.dir t => Node.dir t.prune

/-- Some component of the relative path has an excluded name. -/
def hasExcluded (r : Path) : Bool :=
  r.any (fun x => decide (x ∈ excludedNames))

/-- A chain of `k` nested directories, all called `name`. -/
def nest (name : String) : Nat → Tree
  | 0 => Tree.nil
  | k + 1 => Tree.dir name (nest name k) Tree.nil

/-- An empty template directory; the destination `template/app` lies inside it. -/
def fsInside : Tree :=
  Tree.dir "template" Tree.nil Tree.nil

/-- A template directory next to a regular file `out`; the destination
`out/app` lies below the file. -/
def fsBlocked : Tree :=
  Tree.file "out" [] (Tree.dir "template" Tree.nil Tree.nil)

/-- A small installation: the frontend template under `/opt`, with a source
file, a dependency directory with files inside and the setup script; the user
works in `/home`. -/
def demoTemplate : Tree :=
  Tree.dir "src" (Tree.file "index.ts" [101, 120, 112, 111, 114, 116] Tree.nil)
    (Tree.dir "node_modules"
      (Tree.dir "left-pad" (Tree.file "index.js" [109, 111, 100] Tree.nil) Tree.nil)
      (Tree.dir "scripts" (Tree.file "setup-project.js" [47, 47] Tree.nil) Tree.nil))

/-- The file system of the small installation. -/
def demoFs : Tree :=
  Tree.dir "opt"
    (Tree.dir "Frontend-Template" (Tree.dir "Frontend-Template" demoTemplate Tree.nil) Tree.nil)
    (Tree.dir "home" Tree.nil Tree.nil)

/-- The path is a directory whose tree has no excluded name. -/
def CleanDir (D : Path) (fs : Tree) : Prop :=
  ∃ t, lookup D fs = some (Node.dir t) ∧ t.Clean

/-- A destination `/a` that exists and holds the source `/a/b`; the source has
the entries `b` (holding `c/d`) and `c` (empty). -/
def fsNested : Tree :=
  Tree.dir "a"
    (Tree.dir "b"
      (Tree.dir "b" (Tree.dir "c" (Tree.dir "d" Tree.nil Tree.nil) Tree.nil)
        (Tree.dir "c" Tree.nil Tree.nil))
      Tree.nil)
    Tree.nil

/-- Whether an event is a line on the console. -/
def Event.isLog : Event → Bool
  | Event.log _ => true
  | _ => false

/-- What the process did apart from printing: copies, directory changes and
commands, in order. -/
def actions (trace : List Event) : List Event :=
  trace.filter (fun e => !e.isLog)

/-- The console lines of a trace, in order. -/
def printed (trace : List Event) : List String :=
  trace.filterMap (fun e =>
    match e with
    | Event.log line => some line
    | _ => none)

/-- A line as `log` prints it. -/
def colored (l : String × String) : String :=
  colors l.2 ++ l.1 ++ colors "reset"

/-- The step ended and did nothing but print: same files, same working
directory, no copy, no directory change, no command. -/
def Quiet {α : Type} (w : Proc) (s : Step α) : Prop :=
  ∃ w1, s.proc = some w1 ∧ w1.fs = w.fs ∧ w1.cwd = w.cwd ∧ actions w1.trace = actions w.trace

/-- White space and the characters a POSIX shell treats specially. -/
def shellSpecial : List Char :=
  [' ', '\t', '\n', '\r', ';', '&', '|', '<', '>', '(', ')', '$', Char.ofNat 96, '\\', '"',
   Char.ofNat 39, '*', '?', '[', ']', '#', '~', '=', '%', '!', '\x7b', '\x7d', '^', ',']

/-- The small installation after the frontend template was copied to
`/home/out/my-app`. -/
def demoCopied : Tree :=
  Tree.dir "opt"
    (Tree.dir "Frontend-Template" (Tree.dir "Frontend-Template" demoTemplate Tree.nil) Tree.nil)
    (Tree.dir "home"
      (Tree.dir "out"
        (Tree.dir "my-app"
          (Tree.dir "src" (Tree.file "index.ts" [101, 120, 112, 111, 114, 116] Tree.nil)
            (Tree.dir "scripts" (Tree.file "setup-project.js" [47, 47] Tree.nil) Tree.nil))
          Tree.nil)
        Tree.nil)
      Tree.nil)

/-- A setup script that fails with status 2 and leaves the files alone. -/
def failingRun : String → Path → Tree → ExecResult × Tree :=
  fun _ _ fs => (ExecResult.nonZero 2, fs)

/-- The script installed in `/opt`, with a failing setup script. -/
def demoEnv : Env :=
  ⟨["opt"], failingRun⟩

/-- The process at start: the small installation, working directory `/home`,
nothing printed yet. -/
def demoProc : Proc :=
  ⟨demoFs, ["home"], []⟩

/-- The process after a setup step in which both directory changes went
through: the announcement, the change to the destination, the command with its
warning if it failed, and the change back. -/
def setupDone (env : Env) (tpl : Template) (name : String) (dst : Path) (w : Proc) : Proc :=
  let w1 := log "  🔧 Running setup script..." "cyan" w
  let w3 := tryExec env (setupCommand tpl name) ⟨w1.fs, dst, w1.trace ++ [Event.chdir dst]⟩
  ⟨w3.fs, w.cwd, w3.trace ++ [Event.chdir w.cwd]⟩

/-- The line announcing that the template was copied. -/
def copiedLine (dst : Path) : String × String :=
  ("  ✓ Template copied to " ++ pathToString dst, "green")

/-- A listing without its entries called `n`. -/
def Tree.erase (n : String) : Tree → Tree
  | Tree.nil => Tree.nil
  | Tree.file m c rest => if m = n then Tree.erase n rest else Tree.file m c (Tree.erase n rest)
  | Tree.dir m sub rest => if m = n then Tree.erase n rest else Tree.dir m sub (Tree.erase n rest)

/-- A setup script that removes `/home` and ends with status 0. -/
def scrubbingRun : String → Path → Tree → ExecResult × Tree :=
  fun _ _ fs => (ExecResult.success, fs.erase "home")

/-- A setup script that does nothing and ends with status 0. -/
def quietRun : String → Path → Tree → ExecResult × Tree :=
  fun _ _ fs => (ExecResult.success, fs)

/-- The usage text as it reaches the console: the fourteen lines of `showHelp`,
each between its color code and the reset code. -/
def usageText : List String :=
  ["\x1b[36m\n📦 Betagro Project Generator\x1b[0m",
   "\x1b[36m──────────────────────────────────────────────────\x1b[0m",
   "\x1b[33m\nUsage:\x1b[0m",
   "\x1b[0m  node create-project.js <template-type> <project-name> [destination]\n\x1b[0m",
   "\x1b[33mAvailable Templates:\x1b[0m",
   "\x1b[32m  backend-node    Node.js Backend (Express + TypeScript + Prisma)\x1b[0m",
   "\x1b[32m  backend-python  Python Backend (FastAPI + Uvicorn)\x1b[0m",
   "\x1b[32m  frontend        React Frontend (Vite + TypeScript + Redux)\x1b[0m",
   "\x1b[33m\nExamples:\x1b[0m",
   "\x1b[0m  node create-project.js backend-node my-api\x1b[0m",
   "\x1b[0m  node create-project.js frontend my-app ./projects\x1b[0m",
   "\x1b[0m  node create-project.js backend-python ml-service ../other-folder\n\x1b[0m",
   "\x1b[33mDocumentation:\x1b[0m",
   "\x1b[0m  See standards/07-approved-templates.md for template details\n\x1b[0m"]

/-! ## Regular expression lemmas -/

theorem inClass_lower (c : Char) : inClass [('a', 'z')] c = c.isLower := by
  simp [inClass, Char.isLower, Char.toNat, UInt32.le_def, BitVec.le_def, UInt32.toNat]

theorem beq_hyphen (c : Char) :
    (c == '-') = (decide (45 ≤ c.toNat) && decide (c.toNat ≤ 45)) := by
  rw [Bool.eq_iff_iff]
  simp only [beq_iff_eq, Bool.and_eq_true, decide_eq_true_eq]
  constructor
  · rintro rfl; decide
  · intro h
    have h45 : c.toNat = 45 := by omega
    rw [← Char.ofNat_toNat c, h45]

theorem inClass_tail (c : Char) :
    inClass [('a', 'z'), ('0', '9'), ('-', '-')] c = (c.isLower || c.isDigit || c == '-') := by
  rw [beq_hyphen]
  simp [inClass, Char.isLower, Char.isDigit, Char.toNat, UInt32.le_def, BitVec.le_def,
    UInt32.toNat, Bool.or_assoc]

theorem matchHere_assertEnd :
    matchHere [Term.assertEnd] = fun _ s => s.isEmpty := by
  funext st s
  simp [matchHere]

theorem starLoop_isEmpty (cls : List (Char × Char)) (st : Bool) (cs : List Char) :
    starLoop cls (fun _ s => s.isEmpty) st cs = cs.all (inClass cls) := by
  induction cs generalizing st with
  | nil => simp [starLoop]
  | cons c cs ih => simp [starLoop, ih]

theorem searchFrom_assertBegin_false (p : List Term) (cs : List Char) :
    searchFrom (Term.assertBegin :: p) false cs = false := by
  induction cs with
  | nil => simp [searchFrom, matchHere]
  | cons c cs ih => simp [searchFrom, matchHere, ih]

theorem regexTest_validPattern (s : String) :
    regexTest validPattern s = matchesNamePattern s := by
  unfold regexTest matchesNamePattern validPattern
  cases s.toList with
  | nil => simp [searchFrom, matchHere]
  | cons c cs =>
      have hk : matchHere [Term.assertEnd] = fun _ s => s.isEmpty := matchHere_assertEnd
      have hc : inClass [('a', 'z'), ('0', '9'), ('-', '-')] =
          fun d => d.isLower || d.isDigit || d == '-' := funext inClass_tail
      rw [searchFrom, matchHere, matchHere, matchHere, hk, starLoop_isEmpty, hc,
        searchFrom_assertBegin_false, inClass_lower]
      simp

/-! ## Directory listings -/

theorem Tree.find_cons (n m : String) (y : Node) (rest : Tree) :
    (Tree.cons n y rest).find m = if n = m then some y else rest.find m := by
  cases y <;> simp [Tree.cons, Tree.find]

theorem Tree.depth_cons (n : String) (y : Node) (rest : Tree) :
    (Tree.cons n y rest).depth = max (y.depth + 1) rest.depth := by
  cases y <;> simp [Tree.cons, Tree.depth, Node.depth]

theorem Tree.append_nil (t : Tree) : t.append Tree.nil = t := by
  induction t with
  | nil => rfl
  | file m c rest ih => simp [Tree.append, ih]
  | dir m sub rest _ ih => simp [Tree.append, ih]

theorem Tree.append_assoc (a b c : Tree) : (a.append b).append c = a.append (b.append c) := by
  induction a with
  | nil => rfl
  | file m c rest ih => simp [Tree.append, ih]
  | dir m sub rest _ ih => simp [Tree.append, ih]

theorem Tree.update_of_find_some (n : String) (f : Option Node → Except IOError Node)
    (t : Tree) (x : Node) (h : t.find n = some x) :
    t.update n f =
      match f (some x) with
      | Except.ok y => Except.ok (t.replace n y)
      | Except.error e => Except.error e := by
  induction t with
  | nil => simp [Tree.find] at h
  | file m c rest ih =>
      by_cases hm : m = n
      · simp only [Tree.find, hm, if_true, Option.some.injEq] at h
        subst h
        simp [Tree.update, Tree.replace, hm]
      · simp only [Tree.find, hm, if_false] at h
        simp only [Tree.update, Tree.replace, hm, if_false, ih h]
        cases f (some x) <;> rfl
  | dir m sub rest _ ih =>
      by_cases hm : m = n
      · simp only [Tree.find, hm, if_true, Option.some.injEq] at h
        subst h
        simp [Tree.update, Tree.replace, hm]
      · simp only [Tree.find, hm, if_false] at h
        simp only [Tree.update, Tree.replace, hm, if_false, ih h]
        cases f (some x) <;> rfl

theorem Tree.update_of_find_none (n : String) (f : Option Node → Except IOError Node)
    (t : Tree) (h : t.find n = none) :
    t.update n f =
      match f none with
      | Except.ok y => Except.ok (t.append (Tree.cons n y Tree.nil))
      | Except.error e => Except.error e := by
  induction t with
  | nil => simp [Tree.update, Tree.append]
  | file m c rest ih =>
      by_cases hm : m = n
      · simp [Tree.find, hm] at h
      · simp only [Tree.find, hm, if_false] at h
        simp only [Tree.update, Tree.append, hm, if_false, ih h]
        cases f none <;> rfl
  | dir m sub rest _ ih =>
      by_cases hm : m = n
      · simp [Tree.find, hm] at h
      · simp only [Tree.find, hm, if_false] at h
        simp only [Tree.update, Tree.append, hm, if_false, ih h]
        cases f none <;> rfl

theorem Tree.find_replace (n m : String) (y : Node) (t : Tree) :
    (t.replace n y).find m =
      if n = m then (if t.find n = none then none else some y) else t.find m := by
  induction t with
  | nil => simp [Tree.replace, Tree.find]
  | file k c rest ih =>
      by_cases hk : k = n
      · subst hk
        by_cases hm : k = m
        · simp [Tree.replace, Tree.find, Tree.find_cons, hm]
        · simp [Tree.replace, Tree.find, Tree.find_cons, hm]
      · by_cases hm : n = m
        · subst hm
          simp [Tree.replace, Tree.find, hk, ih]
        · simp [Tree.replace, Tree.find, hk, ih, hm]
  | dir k sub rest _ ih =>
      by_cases hk : k = n
      · subst hk
        by_cases hm : k = m
        · simp [Tree.replace, Tree.find, Tree.find_cons, hm]
        · simp [Tree.replace, Tree.find, Tree.find_cons, hm]
      · by_cases hm : n = m
        · subst hm
          simp [Tree.replace, Tree.find, hk, ih]
        · simp [Tree.replace, Tree.find, hk, ih, hm]

theorem Tree.find_append (a b : Tree) (m : String) :
    (a.append b).find m = match a.find m with
      | some x => some x
      | none => b.find m := by
  induction a with
  | nil => simp [Tree.append, Tree.find]
  | file k c rest ih =>
      by_cases hk : k = m
      · simp [Tree.append, Tree.find, hk]
      · simp [Tree.append, Tree.find, hk, ih]
  | dir k sub rest _ ih =>
      by_cases hk : k = m
      · simp [Tree.append, Tree.find, hk]
      · simp [Tree.append, Tree.find, hk, ih]

theorem Tree.replace_replace (n : String) (y z : Node) (t : Tree) :
    (t.replace n y).replace n z = t.replace n z := by
  induction t with
  | nil => rfl
  | file k c rest ih =>
      by_cases hk : k = n
      · cases y <;> simp [Tree.replace, Tree.cons, hk]
      · simp [Tree.replace, hk, ih]
  | dir k sub rest _ ih =>
      by_cases hk : k = n
      · cases y <;> simp [Tree.replace, Tree.cons, hk]
      · simp [Tree.replace, hk, ih]

theorem Tree.replace_append_of_not_mem (n : String) (y z : Node) (t : Tree)
    (h : t.find n = none) :
    (t.append (Tree.cons n y Tree.nil)).replace n z = t.append (Tree.cons n z Tree.nil) := by
  induction t with
  | nil => cases y <;> simp [Tree.append, Tree.replace, Tree.cons]
  | file k c rest ih =>
      by_cases hk : k = n
      · simp [Tree.find, hk] at h
      · simp only [Tree.find, hk, if_false] at h
        simp [Tree.append, Tree.replace, hk, ih h]
  | dir k sub rest _ ih =>
      by_cases hk : k = n
      · simp [Tree.find, hk] at h
      · simp only [Tree.find, hk, if_false] at h
        simp [Tree.append, Tree.replace, hk, ih h]

/-! ## Path resolution -/

theorem lookup_cons_dir (n : String) (p : Path) (fs sub : Tree)
    (h : fs.find n = some (Node.dir sub)) : lookup (n :: p) fs = lookup p sub := by
  simp [lookup, h]

theorem lookup_cons_none (n : String) (p : Path) (fs : Tree)
    (h : fs.find n = none) : lookup (n :: p) fs = none := by
  simp [lookup, h]

theorem lookup_cons_file (n : String) (p : Path) (fs : Tree) (c : List UInt8)
    (h : fs.find n = some (Node.file c)) :
    lookup (n :: p) fs = if p = [] then some (Node.file c) else none := by
  cases p <;> simp [lookup, h]

theorem lookup_append (p q : Path) (fs t : Tree) (h : lookup p fs = some (Node.dir t)) :
    lookup (p ++ q) fs = lookup q t := by
  induction p generalizing fs with
  | nil =>
      simp only [lookup, Option.some.injEq, Node.dir.injEq] at h
      simp [h]
  | cons n p ih =>
      cases hf : fs.find n with
      | none => simp [lookup_cons_none _ _ _ hf] at h
      | some x =>
          cases x with
          | file c =>
              rw [lookup_cons_file _ _ _ _ hf] at h
              split at h <;> simp at h
          | dir sub =>
              rw [lookup_cons_dir _ _ _ _ hf] at h
              rw [List.cons_append, lookup_cons_dir _ _ _ _ hf]
              exact ih sub h

theorem lookup_append_none (p q : Path) (fs : Tree) (h : lookup p fs = none) :
    lookup (p ++ q) fs = none := by
  induction p generalizing fs with
  | nil => simp [lookup] at h
  | cons n p ih =>
      cases hf : fs.find n with
      | none => rw [List.cons_append, lookup_cons_none _ _ _ hf]
      | some x =>
          cases x with
          | file c =>
              rw [lookup_cons_file _ _ _ _ hf] at h
              rw [List.cons_append, lookup_cons_file _ _ _ _ hf]
              split at h
              · simp at h
              · rename_i hp
                simp [hp]
          | dir sub =>
              rw [lookup_cons_dir _ _ _ _ hf] at h
              rw [List.cons_append, lookup_cons_dir _ _ _ _ hf]
              exact ih sub h

theorem lookup_of_prefix (p q : Path) (fs : Tree) (x : Node) (hpq : p <+: q)
    (h : lookup q fs = some x) : lookup p fs ≠ none := by
  obtain ⟨r, rfl⟩ := hpq
  intro hn
  rw [lookup_append_none p r fs hn] at h
  simp at h

theorem Tree.depth_of_find (n : String) (t : Tree) (x : Node) (h : t.find n = some x) :
    x.depth + 1 ≤ t.depth := by
  induction t with
  | nil => simp [Tree.find] at h
  | file m c rest ih =>
      by_cases hm : m = n
      · simp only [Tree.find, hm, if_true, Option.some.injEq] at h
        subst h
        simp [Tree.depth, Node.depth]
      · simp only [Tree.find, hm, if_false] at h
        have := ih h
        simp only [Tree.depth]
        omega
  | dir m sub rest _ ih =>
      by_cases hm : m = n
      · simp only [Tree.find, hm, if_true, Option.some.injEq] at h
        subst h
        simp [Tree.depth, Node.depth]
      · simp only [Tree.find, hm, if_false] at h
        have := ih h
        simp only [Tree.depth]
        omega

theorem lookup_depth (p : Path) (fs : Tree) (x : Node) (h : lookup p fs = some x) :
    p.length + x.depth ≤ fs.depth := by
  induction p generalizing fs with
  | nil =>
      simp only [lookup, Option.some.injEq] at h
      subst h
      simp [Node.depth]
  | cons n p ih =>
      cases hf : fs.find n with
      | none => simp [lookup_cons_none _ _ _ hf] at h
      | some y =>
          have hd := Tree.depth_of_find n fs y hf
          cases y with
          | file c =>
              rw [lookup_cons_file _ _ _ _ hf] at h
              split at h
              · rename_i hp
                simp only [Option.some.injEq] at h
                subst h
                subst hp
                simp only [Node.depth] at hd ⊢
                simp only [List.length_cons, List.length_nil]
                omega
              · simp at h
          | dir sub =>
              rw [lookup_cons_dir _ _ _ _ hf] at h
              have := ih sub h
              simp only [Node.depth] at hd
              simp only [List.length_cons]
              omega

/-! ## Replacing a directory in place -/

theorem lookup_put_same (D : Path) (new old fs : Tree)
    (h : lookup D fs = some (Node.dir old)) :
    lookup D (put D new fs) = some (Node.dir new) := by
  induction D generalizing fs with
  | nil => simp [put, lookup]
  | cons n D ih =>
      cases hf : fs.find n with
      | none => simp [lookup_cons_none _ _ _ hf] at h
      | some y =>
          cases y with
          | file c =>
              rw [lookup_cons_file _ _ _ _ hf] at h
              split at h <;> simp at h
          | dir sub =>
              rw [lookup_cons_dir _ _ _ _ hf] at h
              have hfind : (fs.replace n (Node.dir (put D new sub))).find n =
                  some (Node.dir (put D new sub)) := by
                simp [Tree.find_replace, hf]
              simp only [put, hf]
              rw [lookup_cons_dir _ _ _ _ hfind]
              exact ih sub h

theorem put_append (D q : Path) (x fs sub : Tree) (h : lookup D fs = some (Node.dir sub)) :
    put (D ++ q) x fs = put D (put q x sub) fs := by
  induction D generalizing fs with
  | nil =>
      simp only [lookup, Option.some.injEq, Node.dir.injEq] at h
      simp [put, h]
  | cons n D ih =>
      cases hf : fs.find n with
      | none => simp [lookup_cons_none _ _ _ hf] at h
      | some y =>
          cases y with
          | file c =>
              rw [lookup_cons_file _ _ _ _ hf] at h
              split at h <;> simp at h
          | dir s =>
              rw [lookup_cons_dir _ _ _ _ hf] at h
              have e := ih s h
              simp only [List.cons_append, put, hf]
              exact congrArg (fun t => fs.replace n (Node.dir t)) e

theorem put_put (D : Path) (a b fs : Tree) : put D b (put D a fs) = put D b fs := by
  induction D generalizing fs with
  | nil => simp [put]
  | cons n D ih =>
      cases hf : fs.find n with
      | none => simp [put, hf]
      | some y =>
          cases y with
          | file c => simp [put, hf]
          | dir s =>
              have hfind : (fs.replace n (Node.dir (put D a s))).find n =
                  some (Node.dir (put D a s)) := by
                simp [Tree.find_replace, hf]
              simp only [put, hf, hfind, Tree.replace_replace, ih]

theorem diverge_cons (a b : String) (p q : Path) :
    Diverge (a :: p) (b :: q) ↔ a ≠ b ∨ Diverge p q := by
  unfold Diverge
  by_cases hab : a = b
  · subst hab
    simp [List.cons_prefix_cons]
  · simp [List.cons_prefix_cons, hab, Ne.symm hab]

theorem not_diverge_nil_left (q : Path) : ¬ Diverge [] q := by
  simp [Diverge]

theorem not_diverge_nil_right (p : Path) : ¬ Diverge p [] := by
  simp [Diverge]

theorem diverge_append (p q x y : Path) (h : Diverge p q) : Diverge (p ++ x) (q ++ y) := by
  induction p generalizing q with
  | nil => exact absurd h (not_diverge_nil_left q)
  | cons a p ih =>
      cases q with
      | nil => exact absurd h (not_diverge_nil_right _)
      | cons b q =>
          rw [diverge_cons] at h
          rw [List.cons_append, List.cons_append, diverge_cons]
          rcases h with h | h
          · exact Or.inl h
          · exact Or.inr (ih q h)

theorem lookup_put_diverge (D p : Path) (new fs : Tree) (h : Diverge p D) :
    lookup p (put D new fs) = lookup p fs := by
  induction D generalizing fs p with
  | nil => exact absurd h (not_diverge_nil_right p)
  | cons n D ih =>
      cases p with
      | nil => exact absurd h (not_diverge_nil_left _)
      | cons m p =>
          rw [diverge_cons] at h
          cases hf : fs.find n with
          | none => simp [put, hf]
          | some y =>
              cases y with
              | file c => simp [put, hf]
              | dir s =>
                  simp only [put, hf]
                  by_cases hmn : m = n
                  · subst hmn
                    have hd : Diverge p D := by
                      rcases h with h | h
                      · exact absurd rfl h
                      · exact h
                    have hfind : (fs.replace m (Node.dir (put D new s))).find m =
                        some (Node.dir (put D new s)) := by
                      simp [Tree.find_replace, hf]
                    rw [lookup_cons_dir _ _ _ _ hfind, lookup_cons_dir _ _ _ _ hf]
                    exact ih p s hd
                  · have hfind : (fs.replace n (Node.dir (put D new s))).find m = fs.find m := by
                      simp [Tree.find_replace, Ne.symm hmn]
                    simp only [lookup, hfind]

/-! ## The file system calls, relative to a directory -/

theorem mkdirSync_cons (n : String) (p : Path) (t : Tree) :
    mkdirSync (n :: p) t =
      t.update n (fun o =>
        match o with
        | none =>
            match mkdirSync p Tree.nil with
            | Except.ok s => Except.ok (Node.dir s)
            | Except.error e => Except.error e
        | some (Node.dir sub) =>
            match mkdirSync p sub with
            | Except.ok s => Except.ok (Node.dir s)
            | Except.error e => Except.error e
        | some (Node.file _) =>
            match p with
            | [] => Except.error IOError.EEXIST
            | _ :: _ => Except.error IOError.ENOTDIR) := by
  simp only [mkdirSync]
  rfl

theorem writeFile_single_eq (c : List UInt8) (n : String) (t : Tree) :
    writeFile c [n] t =
      t.update n (fun o =>
        match o with
        | some (Node.dir _) => Except.error IOError.EISDIR
        | _ => Except.ok (Node.file c)) := by
  simp only [writeFile]

theorem writeFile_cons_cons (c : List UInt8) (n m : String) (q : Path) (t : Tree) :
    writeFile c (n :: m :: q) t =
      t.update n (fun o =>
        match o with
        | none => Except.error IOError.ENOENT
        | some (Node.file _) => Except.error IOError.ENOTDIR
        | some (Node.dir sub) =>
            match writeFile c (m :: q) sub with
            | Except.ok s => Except.ok (Node.dir s)
            | Except.error e => Except.error e) := by
  simp only [writeFile]

theorem mkdirSync_append (D q : Path) (fs sub : Tree)
    (h : lookup D fs = some (Node.dir sub)) :
    mkdirSync (D ++ q) fs =
      match mkdirSync q sub with
      | Except.ok s => Except.ok (put D s fs)
      | Except.error e => Except.error e := by
  induction D generalizing fs with
  | nil =>
      simp only [lookup, Option.some.injEq, Node.dir.injEq] at h
      subst h
      simp only [List.nil_append]
      cases mkdirSync q fs <;> simp [put]
  | cons n D ih =>
      cases hf : fs.find n with
      | none => simp [lookup_cons_none _ _ _ hf] at h
      | some y =>
          cases y with
          | file c =>
              rw [lookup_cons_file _ _ _ _ hf] at h
              split at h <;> simp at h
          | dir s =>
              rw [lookup_cons_dir _ _ _ _ hf] at h
              have e := ih s h
              rw [List.cons_append, mkdirSync_cons, Tree.update_of_find_some _ _ _ _ hf]
              simp only [e]
              cases mkdirSync q sub <;> simp [put, hf]

theorem writeFile_append (c : List UInt8) (D q : Path) (fs sub : Tree)
    (h : lookup D fs = some (Node.dir sub)) :
    writeFile c (D ++ q) fs =
      match writeFile c q sub with
      | Except.ok s => Except.ok (put D s fs)
      | Except.error e => Except.error e := by
  induction D generalizing fs with
  | nil =>
      simp only [lookup, Option.some.injEq, Node.dir.injEq] at h
      subst h
      simp only [List.nil_append]
      cases writeFile c q fs <;> simp [put]
  | cons n D ih =>
      cases hf : fs.find n with
      | none => simp [lookup_cons_none _ _ _ hf] at h
      | some y =>
          cases y with
          | file c =>
              rw [lookup_cons_file _ _ _ _ hf] at h
              split at h <;> simp at h
          | dir s =>
              rw [lookup_cons_dir _ _ _ _ hf] at h
              have e := ih s h
              cases hDq : D ++ q with
              | nil =>
                  have hD : D = [] := (List.append_eq_nil.mp hDq).1
                  have hq : q = [] := (List.append_eq_nil.mp hDq).2
                  subst hD
                  subst hq
                  rw [List.cons_append, List.nil_append, writeFile_single_eq,
                    Tree.update_of_find_some _ _ _ _ hf]
                  simp [writeFile]
              | cons m r =>
                  rw [hDq] at e
                  rw [List.cons_append, hDq, writeFile_cons_cons,
                    Tree.update_of_find_some _ _ _ _ hf]
                  simp only [e]
                  cases writeFile c q sub <;> simp [put, hf]

theorem mkdirSync_nil_ok (p : Path) : ∃ s, mkdirSync p Tree.nil = Except.ok s := by
  induction p with
  | nil => exact ⟨_, rfl⟩
  | cons n p ih =>
      obtain ⟨s, hs⟩ := ih
      exact ⟨Tree.dir n s Tree.nil, by simp [mkdirSync_cons, Tree.update, hs, Tree.cons]⟩

theorem mkdirSync_single (n : String) (acc : Tree) (h : acc.find n = none) :
    mkdirSync [n] acc = Except.ok (acc.append (Tree.dir n Tree.nil Tree.nil)) := by
  rw [mkdirSync_cons, Tree.update_of_find_none _ _ _ h]
  simp [mkdirSync, Tree.cons]

theorem writeFile_single (c : List UInt8) (n : String) (acc : Tree) (h : acc.find n = none) :
    writeFile c [n] acc = Except.ok (acc.append (Tree.file n c Tree.nil)) := by
  rw [writeFile_single_eq, Tree.update_of_find_none _ _ _ h]
  simp [Tree.cons]

/-! ## The copy, when source and destination part ways -/

theorem Tree.replace_self (n : String) (y : Node) (t : Tree) (h : t.find n = some y) :
    t.replace n y = t := by
  induction t with
  | nil => rfl
  | file m c rest ih =>
      by_cases hm : m = n
      · simp only [Tree.find, hm, if_true, Option.some.injEq] at h
        subst h
        simp [Tree.replace, Tree.cons, hm]
      · simp only [Tree.find, hm, if_false] at h
        simp [Tree.replace, hm, ih h]
  | dir m sub rest _ ih =>
      by_cases hm : m = n
      · simp only [Tree.find, hm, if_true, Option.some.injEq] at h
        subst h
        simp [Tree.replace, Tree.cons, hm]
      · simp only [Tree.find, hm, if_false] at h
        simp [Tree.replace, hm, ih h]

theorem put_self (D : Path) (fs t : Tree) (h : lookup D fs = some (Node.dir t)) :
    put D t fs = fs := by
  induction D generalizing fs with
  | nil =>
      simp only [lookup, Option.some.injEq, Node.dir.injEq] at h
      simp [put, h]
  | cons n D ih =>
      cases hf : fs.find n with
      | none => simp [put, hf]
      | some y =>
          cases y with
          | file c => simp [put, hf]
          | dir s =>
              rw [lookup_cons_dir _ _ _ _ hf] at h
              simp only [put, hf, ih s h]
              exact Tree.replace_self n _ fs hf

theorem lookup_single (m : String) (t : Tree) : lookup [m] t = t.find m := by
  cases hf : t.find m with
  | none => simp [lookup, hf]
  | some y => cases y <;> simp [lookup, hf]

theorem readdirSync_dir (p : Path) (fs t : Tree) (h : lookup p fs = some (Node.dir t)) :
    readdirSync p fs = Except.ok t.entries := by
  simp [readdirSync, h]

theorem lookup_child (p : Path) (m : String) (fs t : Tree)
    (h : lookup p fs = some (Node.dir t)) : lookup (p ++ [m]) fs = t.find m := by
  rw [lookup_append p [m] fs t h, lookup_single]

theorem diverge_child_left (S D : Path) (m : String) (h : Diverge S D) :
    Diverge (S ++ [m]) D := by
  have := diverge_append S D [m] [] h
  simpa using this

theorem put_child (D : Path) (n : String) (x y acc fs : Tree) (hacc : acc.find n = none)
    (hD : lookup D fs = some (Node.dir acc)) :
    put (D ++ [n]) x (put D (acc.append (Tree.dir n y Tree.nil)) fs) =
      put D (acc.append (Tree.dir n x Tree.nil)) fs := by
  have h1 : lookup D (put D (acc.append (Tree.dir n y Tree.nil)) fs) =
      some (Node.dir (acc.append (Tree.dir n y Tree.nil))) := lookup_put_same D _ acc fs hD
  rw [put_append D [n] x _ _ h1, put_put]
  congr 1
  have hfind : (acc.append (Tree.dir n y Tree.nil)).find n = some (Node.dir y) := by
    rw [Tree.find_append, hacc]
    simp [Tree.find]
  simp only [put, hfind]
  exact Tree.replace_append_of_not_mem n (Node.dir y) (Node.dir x) acc hacc

theorem copyEntries_spec (suf : Tree) :
    ∀ (fuel : Nat) (fs : Tree) (S D : Path) (acc : Tree),
      suf.depth ≤ fuel → suf.Distinct →
      (∀ m ∈ suf.names, lookup (S ++ [m]) fs = suf.find m) →
      (∀ m ∈ suf.names, acc.find m = none) →
      lookup D fs = some (Node.dir acc) → Diverge S D →
      copyEntries (copyDir fuel) S D suf.entries fs =
        some (CopyResult.done (put D (acc.append suf.prune) fs)) := by
  induction suf with
  | nil =>
      intro fuel fs S D acc _ _ _ _ hD _
      simp [Tree.entries, copyEntries, Tree.prune, Tree.append_nil, put_self D fs acc hD]
  | file n c rest ih =>
      intro fuel fs S D acc hfuel hdist hS hacc hD hdiv
      obtain ⟨hn, hdr⟩ := hdist
      have hfuel' : rest.depth ≤ fuel := by
        simp only [Tree.depth] at hfuel
        omega
      have hneq : ∀ m ∈ rest.names, n ≠ m := fun m hm e => hn (e ▸ hm)
      have hS' : ∀ fs1 : Tree, (∀ p, Diverge p D → lookup p fs1 = lookup p fs) →
          ∀ m ∈ rest.names, lookup (S ++ [m]) fs1 = rest.find m := by
        intro fs1 hfr m hm
        rw [hfr _ (diverge_child_left S D m hdiv), hS m (by simp [Tree.names, hm])]
        simp [Tree.find, hneq m hm]
      by_cases hex : n ∈ excludedNames
      · simp only [Tree.entries, copyEntries, hex, if_true, Tree.prune]
        exact ih fuel fs S D acc hfuel' hdr (hS' fs (fun _ _ => rfl))
          (fun m hm => hacc m (by simp [Tree.names, hm])) hD hdiv
      · have hsrc : lookup (S ++ [n]) fs = some (Node.file c) := by
          rw [hS n (by simp [Tree.names])]
          simp [Tree.find]
        have hnacc : acc.find n = none := hacc n (by simp [Tree.names])
        have hw : writeFile c (D ++ [n]) fs =
            Except.ok (put D (acc.append (Tree.file n c Tree.nil)) fs) := by
          rw [writeFile_append c D [n] fs acc hD, writeFile_single c n acc hnacc]
        simp only [Tree.entries, copyEntries, hex, if_false, Tree.prune, copyFileSync, hsrc, hw]
        have := ih fuel (put D (acc.append (Tree.file n c Tree.nil)) fs) S D
          (acc.append (Tree.file n c Tree.nil)) hfuel' hdr
          (hS' _ (fun p hp => lookup_put_diverge D p _ fs hp))
          (fun m hm => by
            rw [Tree.find_append, hacc m (by simp [Tree.names, hm])]
            simp [Tree.find, hneq m hm])
          (lookup_put_same D _ acc fs hD) hdiv
        simpa [put_put, Tree.append_assoc, Tree.append] using this
  | dir n sub rest ihsub ih =>
      intro fuel fs S D acc hfuel hdist hS hacc hD hdiv
      obtain ⟨hn, hds, hdr⟩ := hdist
      have hfuel' : rest.depth ≤ fuel := by
        simp only [Tree.depth] at hfuel
        omega
      have hneq : ∀ m ∈ rest.names, n ≠ m := fun m hm e => hn (e ▸ hm)
      have hS' : ∀ fs1 : Tree, (∀ p, Diverge p D → lookup p fs1 = lookup p fs) →
          ∀ m ∈ rest.names, lookup (S ++ [m]) fs1 = rest.find m := by
        intro fs1 hfr m hm
        rw [hfr _ (diverge_child_left S D m hdiv), hS m (by simp [Tree.names, hm])]
        simp [Tree.find, hneq m hm]
      by_cases hex : n ∈ excludedNames
      · simp only [Tree.entries, copyEntries, hex, if_true, Tree.prune]
        exact ih fuel fs S D acc hfuel' hdr (hS' fs (fun _ _ => rfl))
          (fun m hm => hacc m (by simp [Tree.names, hm])) hD hdiv
      · obtain ⟨k, rfl⟩ : ∃ k, fuel = k + 1 := by
          simp only [Tree.depth] at hfuel
          exact ⟨fuel - 1, by omega⟩
        have hk : sub.depth ≤ k := by
          simp only [Tree.depth] at hfuel
          omega
        have hsrc : lookup (S ++ [n]) fs = some (Node.dir sub) := by
          rw [hS n (by simp [Tree.names])]
          simp [Tree.find]
        have hnacc : acc.find n = none := hacc n (by simp [Tree.names])
        have hm : mkdirSync (D ++ [n]) fs =
            Except.ok (put D (acc.append (Tree.dir n Tree.nil Tree.nil)) fs) := by
          rw [mkdirSync_append D [n] fs acc hD, mkdirSync_single n acc hnacc]
        have hD1 : lookup D (put D (acc.append (Tree.dir n Tree.nil Tree.nil)) fs) =
            some (Node.dir (acc.append (Tree.dir n Tree.nil Tree.nil))) :=
          lookup_put_same D _ acc fs hD
        have hsrc1 : lookup (S ++ [n]) (put D (acc.append (Tree.dir n Tree.nil Tree.nil)) fs) =
            some (Node.dir sub) := by
          rw [lookup_put_diverge D _ _ fs (diverge_child_left S D n hdiv), hsrc]
        have hdst1 : lookup (D ++ [n]) (put D (acc.append (Tree.dir n Tree.nil Tree.nil)) fs) =
            some (Node.dir Tree.nil) := by
          rw [lookup_child D n _ _ hD1, Tree.find_append, hnacc]
          simp [Tree.find]
        have hinner := ihsub k (put D (acc.append (Tree.dir n Tree.nil Tree.nil)) fs)
          (S ++ [n]) (D ++ [n]) Tree.nil hk hds
          (fun m _ => lookup_child (S ++ [n]) m _ sub hsrc1)
          (fun m _ => rfl) hdst1 (diverge_append S D [n] [n] hdiv)
        have hcall : copyDir (k + 1) (S ++ [n]) (D ++ [n]) fs =
            some (CopyResult.done (put D (acc.append (Tree.dir n sub.prune Tree.nil)) fs)) := by
          simp only [copyDir, hm, readdirSync_dir _ _ _ hsrc1, hinner, Tree.append]
          rw [put_child D n _ _ acc fs hnacc hD]
        simp only [Tree.entries, copyEntries, hex, if_false, if_true, Tree.prune, hcall]
        have := ih (k + 1) (put D (acc.append (Tree.dir n sub.prune Tree.nil)) fs) S D
          (acc.append (Tree.dir n sub.prune Tree.nil)) hfuel' hdr
          (hS' _ (fun p hp => lookup_put_diverge D p _ fs hp))
          (fun m hm => by
            rw [Tree.find_append, hacc m (by simp [Tree.names, hm])]
            simp [Tree.find, hneq m hm])
          (lookup_put_same D _ acc fs hD) hdiv
        simpa [put_put, Tree.append_assoc, Tree.append] using this

/-! ## What one update of a directory listing does -/

theorem Tree.depth_append (a b : Tree) : (a.append b).depth = max a.depth b.depth := by
  induction a with
  | nil => simp [Tree.append, Tree.depth]
  | file m c rest ih => simp only [Tree.append, Tree.depth, ih]; omega
  | dir m sub rest _ ih => simp only [Tree.append, Tree.depth, ih]; omega

theorem Tree.clean_append (a b : Tree) : (a.append b).Clean ↔ a.Clean ∧ b.Clean := by
  induction a with
  | nil => simp [Tree.append, Tree.Clean]
  | file m c rest ih => simp [Tree.append, Tree.Clean, ih, and_assoc]
  | dir m sub rest _ ih => simp [Tree.append, Tree.Clean, ih, and_assoc]

theorem Tree.clean_cons (n : String) (y : Node) (rest : Tree) :
    (Tree.cons n y rest).Clean ↔ n ∉ excludedNames ∧ y.Clean ∧ rest.Clean := by
  cases y <;> simp [Tree.cons, Tree.Clean, Node.Clean]

theorem Tree.depth_replace (n : String) (y : Node) (t : Tree) :
    (t.replace n y).depth ≤ max t.depth (y.depth + 1) := by
  induction t with
  | nil => simp [Tree.replace, Tree.depth]
  | file m c rest ih =>
      by_cases hm : m = n
      · simp only [Tree.replace, hm, if_true, Tree.depth_cons, Tree.depth]; omega
      · simp only [Tree.replace, hm, if_false, Tree.depth]; omega
  | dir m sub rest _ ih =>
      by_cases hm : m = n
      · simp only [Tree.replace, hm, if_true, Tree.depth_cons, Tree.depth]; omega
      · simp only [Tree.replace, hm, if_false, Tree.depth]; omega

theorem Tree.clean_replace (n : String) (y : Node) (t : Tree) (ht : t.Clean)
    (hn : n ∉ excludedNames) (hy : y.Clean) : (t.replace n y).Clean := by
  induction t with
  | nil => simp [Tree.replace, Tree.Clean]
  | file m c rest ih =>
      by_cases hm : m = n
      · simp only [Tree.replace, hm, if_true, Tree.clean_cons]
        exact ⟨hn, hy, ht.2⟩
      · simp only [Tree.replace, hm, if_false, Tree.Clean]
        exact ⟨ht.1, ih ht.2⟩
  | dir m sub rest _ ih =>
      by_cases hm : m = n
      · simp only [Tree.replace, hm, if_true, Tree.clean_cons]
        exact ⟨hn, hy, ht.2.2⟩
      · simp only [Tree.replace, hm, if_false, Tree.Clean]
        exact ⟨ht.1, ht.2.1, ih ht.2.2⟩

theorem Tree.clean_of_find (n : String) (t : Tree) (y : Node) (ht : t.Clean)
    (h : t.find n = some y) : y.Clean := by
  induction t with
  | nil => simp [Tree.find] at h
  | file m c rest ih =>
      by_cases hm : m = n
      · simp only [Tree.find, hm, if_true, Option.some.injEq] at h
        subst h
        trivial
      · simp only [Tree.find, hm, if_false] at h
        exact ih ht.2 h
  | dir m sub rest _ ih =>
      by_cases hm : m = n
      · simp only [Tree.find, hm, if_true, Option.some.injEq] at h
        subst h
        exact ht.2.1
      · simp only [Tree.find, hm, if_false] at h
        exact ih ht.2.2 h

theorem Tree.update_ok (n : String) (f : Option Node → Except IOError Node) (t t1 : Tree)
    (h : t.update n f = Except.ok t1) :
    ∃ y, f (t.find n) = Except.ok y ∧ t1.find n = some y ∧
      (∀ m, m ≠ n → t1.find m = t.find m) ∧
      t1.depth ≤ max t.depth (y.depth + 1) ∧
      (t.Clean → n ∉ excludedNames → y.Clean → t1.Clean) := by
  cases hf : t.find n with
  | none =>
      rw [Tree.update_of_find_none n f t hf] at h
      cases hy : f none with
      | error e => simp [hy] at h
      | ok y =>
          simp only [hy, Except.ok.injEq] at h
          subst h
          refine ⟨y, rfl, ?_, ?_, ?_, ?_⟩
          · simp [Tree.find_append, hf, Tree.find_cons]
          · intro m hm
            rw [Tree.find_append]
            cases t.find m with
            | none => simp [Tree.find_cons, Ne.symm hm, Tree.find]
            | some x => rfl
          · rw [Tree.depth_append, Tree.depth_cons]
            simp only [Tree.depth]
            omega
          · intro ht hn hyc
            rw [Tree.clean_append, Tree.clean_cons]
            exact ⟨ht, hn, hyc, trivial⟩
  | some x =>
      rw [Tree.update_of_find_some n f t x hf] at h
      cases hy : f (some x) with
      | error e => simp [hy] at h
      | ok y =>
          simp only [hy, Except.ok.injEq] at h
          subst h
          refine ⟨y, rfl, ?_, ?_, ?_, ?_⟩
          · simp [Tree.find_replace, hf]
          · intro m hm
            simp [Tree.find_replace, Ne.symm hm]
          · exact Tree.depth_replace n y t
          · intro ht hn hyc
            exact Tree.clean_replace n y t ht hn hyc

theorem lookup_cons_congr (m : String) (p : Path) (fs fs1 : Tree)
    (h : fs1.find m = fs.find m) : lookup (m :: p) fs1 = lookup (m :: p) fs := by
  simp only [lookup, h]

theorem lookup_nil_tree (p : Path) (h : p ≠ []) : lookup p Tree.nil = none := by
  cases p with
  | nil => exact absurd rfl h
  | cons m p => simp [lookup, Tree.find]

/-! ## mkdirSync and writeFile, one component at a time -/

theorem mkdirSync_cons_ok (n : String) (p : Path) (fs fs1 : Tree)
    (h : mkdirSync (n :: p) fs = Except.ok fs1) :
    ∃ sub s, (fs.find n = none ∧ sub = Tree.nil ∨ fs.find n = some (Node.dir sub)) ∧
      mkdirSync p sub = Except.ok s ∧ fs1.find n = some (Node.dir s) ∧
      (∀ m, m ≠ n → fs1.find m = fs.find m) ∧
      fs1.depth ≤ max fs.depth (s.depth + 1) ∧
      (fs.Clean → n ∉ excludedNames → s.Clean → fs1.Clean) := by
  rw [mkdirSync_cons] at h
  obtain ⟨y, hy, hfind, hother, hdepth, hclean⟩ := Tree.update_ok n _ fs fs1 h
  cases hf : fs.find n with
  | none =>
      rw [hf] at hy
      cases hs : mkdirSync p Tree.nil with
      | error e => simp [hs] at hy
      | ok s =>
          simp only [hs, Except.ok.injEq] at hy
          subst hy
          exact ⟨Tree.nil, s, Or.inl ⟨rfl, rfl⟩, hs, hfind, hother, hdepth, hclean⟩
  | some x =>
      rw [hf] at hy
      cases x with
      | file c => cases p <;> simp at hy
      | dir sub =>
          cases hs : mkdirSync p sub with
          | error e => simp [hs] at hy
          | ok s =>
              simp only [hs, Except.ok.injEq] at hy
              subst hy
              exact ⟨sub, s, Or.inr rfl, hs, hfind, hother, hdepth, hclean⟩

theorem writeFile_cons_ok (c : List UInt8) (n : String) (q : Path) (fs fs1 : Tree)
    (h : writeFile c (n :: q) fs = Except.ok fs1) :
    (∀ m, m ≠ n → fs1.find m = fs.find m) ∧
    ((q = [] ∧ fs1.find n = some (Node.file c) ∧ (∀ sub, fs.find n ≠ some (Node.dir sub)) ∧
        fs1.depth ≤ max fs.depth 1 ∧ (fs.Clean → n ∉ excludedNames → fs1.Clean)) ∨
     (∃ sub s, q ≠ [] ∧ fs.find n = some (Node.dir sub) ∧ writeFile c q sub = Except.ok s ∧
        fs1.find n = some (Node.dir s) ∧ fs1.depth ≤ max fs.depth (s.depth + 1) ∧
        (fs.Clean → n ∉ excludedNames → s.Clean → fs1.Clean))) := by
  cases q with
  | nil =>
      rw [writeFile_single_eq] at h
      obtain ⟨y, hy, hfind, hother, hdepth, hclean⟩ := Tree.update_ok n _ fs fs1 h
      have hyc : y = Node.file c := by
        cases hf : fs.find n with
        | none => rw [hf] at hy; simpa using hy.symm
        | some x =>
            rw [hf] at hy
            cases x with
            | file c0 => simpa using hy.symm
            | dir sub => simp at hy
      subst hyc
      refine ⟨hother, Or.inl ⟨rfl, hfind, ?_, ?_, ?_⟩⟩
      · intro sub hsub
        rw [hsub] at hy
        simp at hy
      · simpa [Node.depth] using hdepth
      · intro hc hn
        exact hclean hc hn trivial
  | cons m r =>
      rw [writeFile_cons_cons] at h
      obtain ⟨y, hy, hfind, hother, hdepth, hclean⟩ := Tree.update_ok n _ fs fs1 h
      refine ⟨hother, Or.inr ?_⟩
      cases hf : fs.find n with
      | none => rw [hf] at hy; simp at hy
      | some x =>
          rw [hf] at hy
          cases x with
          | file c0 => simp at hy
          | dir sub =>
              cases hs : writeFile c (m :: r) sub with
              | error e => simp [hs] at hy
              | ok s =>
                  simp only [hs, Except.ok.injEq] at hy
                  subst hy
                  exact ⟨sub, s, by simp, rfl, hs, hfind, hdepth, hclean⟩

theorem mkdirSync_frame (D : Path) :
    ∀ (p : Path) (fs fs1 : Tree), mkdirSync D fs = Except.ok fs1 → ¬ p <+: D →
      lookup p fs1 = lookup p fs := by
  induction D with
  | nil =>
      intro p fs fs1 h _
      simp only [mkdirSync, Except.ok.injEq] at h
      rw [h]
  | cons n D ih =>
      intro p fs fs1 h hp
      cases p with
      | nil => exact absurd List.nil_prefix hp
      | cons m p =>
          obtain ⟨sub, s, hsub, hs, hfind, hother, -, -⟩ := mkdirSync_cons_ok n D fs fs1 h
          by_cases hmn : m = n
          · subst hmn
            have hp' : ¬ p <+: D := fun hh => hp (by simpa [List.cons_prefix_cons] using hh)
            rw [lookup_cons_dir _ _ _ _ hfind, ih p sub s hs hp']
            rcases hsub with ⟨hnone, rfl⟩ | hdir
            · rw [lookup_cons_none _ _ _ hnone]
              exact lookup_nil_tree p (fun e => hp' (e ▸ List.nil_prefix))
            · rw [lookup_cons_dir _ _ _ _ hdir]
          · exact lookup_cons_congr m p fs fs1 (hother m hmn)

theorem writeFile_frame (c : List UInt8) (q : Path) :
    ∀ (p : Path) (fs fs1 : Tree), writeFile c q fs = Except.ok fs1 → ¬ p <+: q →
      lookup p fs1 = lookup p fs := by
  induction q with
  | nil =>
      intro p fs fs1 h _
      simp [writeFile] at h
  | cons n q ih =>
      intro p fs fs1 h hp
      cases p with
      | nil => exact absurd List.nil_prefix hp
      | cons m p =>
          obtain ⟨hother, hcase⟩ := writeFile_cons_ok c n q fs fs1 h
          by_cases hmn : m = n
          · subst hmn
            have hp' : ¬ p <+: q := fun hh => hp (by simpa [List.cons_prefix_cons] using hh)
            rcases hcase with ⟨hq, hfile, hnodir, -, -⟩ | ⟨sub, s, -, hdir, hs, hfind, -, -⟩
            · subst hq
              have hpne : p ≠ [] := fun e => hp' (e ▸ List.nil_prefix)
              rw [lookup_cons_file _ _ _ _ hfile, if_neg hpne]
              cases hf : fs.find m with
              | none => rw [lookup_cons_none _ _ _ hf]
              | some x =>
                  cases x with
                  | file c0 => rw [lookup_cons_file _ _ _ _ hf, if_neg hpne]
                  | dir sub => exact absurd hf (hnodir sub)
            · rw [lookup_cons_dir _ _ _ _ hfind, ih p sub s hs hp',
                lookup_cons_dir _ _ _ _ hdir]
          · exact lookup_cons_congr m p fs fs1 (hother m hmn)

/-! ## Creating the destination directory -/

theorem mkdirSync_succeeds (D : Path) :
    ∀ fs : Tree, (∀ p c, p <+: D → lookup p fs ≠ some (Node.file c)) →
      ∃ fs1, mkdirSync D fs = Except.ok fs1 := by
  induction D with
  | nil => intro fs _; exact ⟨fs, rfl⟩
  | cons n D ih =>
      intro fs h
      rw [mkdirSync_cons]
      cases hf : fs.find n with
      | none =>
          obtain ⟨s, hs⟩ := mkdirSync_nil_ok D
          rw [Tree.update_of_find_none _ _ _ hf]
          simp [hs]
      | some x =>
          cases x with
          | file c =>
              exact absurd (by rw [lookup_single, hf]) (h [n] c (by simp [List.cons_prefix_cons]))
          | dir sub =>
              have hsub : ∀ p c, p <+: D → lookup p sub ≠ some (Node.file c) := by
                intro p c hp
                have := h (n :: p) c (by simpa [List.cons_prefix_cons] using hp)
                rwa [lookup_cons_dir _ _ _ _ hf] at this
              obtain ⟨s, hs⟩ := ih sub hsub
              rw [Tree.update_of_find_some _ _ _ _ hf]
              simp [hs]

theorem mkdirSync_nil_creates (D : Path) :
    ∀ s : Tree, mkdirSync D Tree.nil = Except.ok s → lookup D s = some (Node.dir Tree.nil) := by
  induction D with
  | nil =>
      intro s h
      simp only [mkdirSync, Except.ok.injEq] at h
      subst h
      rfl
  | cons n D ih =>
      intro s h
      obtain ⟨sub, s1, hsub, hs, hfind, -, -, -⟩ := mkdirSync_cons_ok n D Tree.nil s h
      rcases hsub with ⟨-, rfl⟩ | hdir
      · rw [lookup_cons_dir _ _ _ _ hfind]
        exact ih s1 hs
      · simp [Tree.find] at hdir

theorem mkdirSync_creates (D : Path) :
    ∀ fs fs1 : Tree, lookup D fs = none → mkdirSync D fs = Except.ok fs1 →
      lookup D fs1 = some (Node.dir Tree.nil) := by
  induction D with
  | nil => intro fs fs1 h; simp [lookup] at h
  | cons n D ih =>
      intro fs fs1 hnone h
      obtain ⟨sub, s, hsub, hs, hfind, -, -, -⟩ := mkdirSync_cons_ok n D fs fs1 h
      rw [lookup_cons_dir _ _ _ _ hfind]
      rcases hsub with ⟨-, rfl⟩ | hdir
      · exact mkdirSync_nil_creates D s hs
      · rw [lookup_cons_dir _ _ _ _ hdir] at hnone
        exact ih sub s hnone hs

/-- The copy of a directory to a fresh destination outside it: the call returns,
the destination holds the pruned source tree, and nothing off the destination
path changes. -/
theorem copyDir_fresh (T fs : Tree) (S D : Path) (fuel : Nat)
    (hS : lookup S fs = some (Node.dir T)) (hT : T.Distinct)
    (hD : lookup D fs = none) (hSD : ¬ S <+: D)
    (hanc : ∀ p c, p <+: D → lookup p fs ≠ some (Node.file c))
    (hfuel : T.depth < fuel) :
    ∃ fs2, copyDir fuel S D fs = some (CopyResult.done fs2) ∧
      lookup D fs2 = some (Node.dir T.prune) ∧
      (∀ p, Diverge p D → lookup p fs2 = lookup p fs) := by
  have hdiv : Diverge S D := by
    refine ⟨hSD, fun hDS => ?_⟩
    exact lookup_of_prefix D S fs _ hDS hS hD
  obtain ⟨fs1, hmk⟩ := mkdirSync_succeeds D fs hanc
  obtain ⟨k, rfl⟩ : ∃ k, fuel = k + 1 := ⟨fuel - 1, by omega⟩
  have hS1 : lookup S fs1 = some (Node.dir T) := by
    rw [mkdirSync_frame D S fs fs1 hmk hSD, hS]
  have hD1 : lookup D fs1 = some (Node.dir Tree.nil) := mkdirSync_creates D fs fs1 hD hmk
  have hloop := copyEntries_spec T k fs1 S D Tree.nil (by omega) hT
    (fun m _ => lookup_child S m fs1 T hS1) (fun m _ => rfl) hD1 hdiv
  refine ⟨put D T.prune fs1, ?_, lookup_put_same D _ _ fs1 hD1, ?_⟩
  · simp only [copyDir, hmk, readdirSync_dir _ _ _ hS1, hloop, Tree.append]
  · intro p hp
    rw [lookup_put_diverge D p _ fs1 hp, mkdirSync_frame D p fs fs1 hmk hp.1]

/-! ## The pruned tree, path by path -/

theorem Tree.find_prune (n : String) (t : Tree) :
    t.prune.find n = if n ∈ excludedNames then none else (t.find n).map Node.prune := by
  induction t with
  | nil => simp [Tree.prune, Tree.find]
  | file m c rest ih =>
      by_cases hm : m = n
      · subst hm
        by_cases hex : m ∈ excludedNames
        · simp [Tree.prune, hex, ih]
        · simp [Tree.prune, hex, Tree.find, Node.prune]
      · by_cases hex : m ∈ excludedNames
        · simp [Tree.prune, hex, ih, Tree.find, hm]
        · simp [Tree.prune, hex, ih, Tree.find, hm]
  | dir m sub rest _ ih =>
      by_cases hm : m = n
      · subst hm
        by_cases hex : m ∈ excludedNames
        · simp [Tree.prune, hex, ih]
        · simp [Tree.prune, hex, Tree.find, Node.prune]
      · by_cases hex : m ∈ excludedNames
        · simp [Tree.prune, hex, ih, Tree.find, hm]
        · simp [Tree.prune, hex, ih, Tree.find, hm]

theorem lookup_prune (r : Path) :
    ∀ t : Tree, lookup r t.prune =
      if hasExcluded r then none else (lookup r t).map Node.prune := by
  induction r with
  | nil => intro t; simp [lookup, hasExcluded, Node.prune]
  | cons n r ih =>
      intro t
      by_cases hex : n ∈ excludedNames
      · have hf : t.prune.find n = none := by simp [Tree.find_prune, hex]
        simp [lookup_cons_none _ _ _ hf, hasExcluded, hex]
      · have hh : hasExcluded (n :: r) = hasExcluded r := by simp [hasExcluded, hex]
        rw [hh]
        cases hf : t.find n with
        | none =>
            have hf2 : t.prune.find n = none := by simp [Tree.find_prune, hex, hf]
            rw [lookup_cons_none _ _ _ hf2, lookup_cons_none _ _ _ hf]
            simp
        | some x =>
            cases x with
            | file c =>
                have hf2 : t.prune.find n = some (Node.file c) := by
                  simp [Tree.find_prune, hex, hf, Node.prune]
                rw [lookup_cons_file _ _ _ _ hf2, lookup_cons_file _ _ _ _ hf]
                cases r with
                | nil => simp [hasExcluded, Node.prune]
                | cons a r => simp
            | dir sub =>
                have hf2 : t.prune.find n = some (Node.dir sub.prune) := by
                  simp [Tree.find_prune, hex, hf, Node.prune]
                rw [lookup_cons_dir _ _ _ _ hf2, lookup_cons_dir _ _ _ _ hf]
                exact ih sub

theorem not_blocked (D : Path) (fs : Tree) (h : blocked D fs = false) :
    ∀ p c, p <+: D → lookup p fs ≠ some (Node.file c) := by
  intro p c hp hl
  have hmem : p ∈ D.inits := (List.mem_inits p D).mpr hp
  have : blocked D fs = true := by
    unfold blocked
    rw [List.any_eq_true]
    exact ⟨p, hmem, by simp [hl]⟩
  rw [h] at this
  exact Bool.noConfusion this

/-! ## A destination inside the source -/

theorem mkdirSync_nest (a : String) (k : Nat) :
    mkdirSync (List.replicate (k + 1) a) (nest a k) = Except.ok (nest a (k + 1)) := by
  induction k with
  | zero => simp [mkdirSync, nest, Tree.update, Tree.cons]
  | succ k ih =>
      rw [List.replicate_succ, mkdirSync_cons]
      simp only [nest] at ih ⊢
      simp [Tree.update, ih, Tree.cons]

theorem lookup_nest (a : String) (k j : Nat) :
    lookup (List.replicate k a) (nest a (k + j)) = some (Node.dir (nest a j)) := by
  induction k with
  | zero => simp [lookup]
  | succ k ih =>
      have e : k + 1 + j = (k + j) + 1 := by omega
      rw [List.replicate_succ, e]
      simp only [nest]
      rw [lookup_cons_dir a _ _ (nest a (k + j)) (by simp [Tree.find])]
      exact ih

theorem copyDir_inside_diverges (t a : String) (ha : a ∉ excludedNames) (fuel : Nat) :
    ∀ k : Nat,
      copyDir fuel (t :: List.replicate k a) (t :: List.replicate (k + 1) a)
        (Tree.dir t (nest a k) Tree.nil) = none := by
  induction fuel with
  | zero => intro k; rfl
  | succ f ih =>
      intro k
      have hmk : mkdirSync (t :: List.replicate (k + 1) a) (Tree.dir t (nest a k) Tree.nil) =
          Except.ok (Tree.dir t (nest a (k + 1)) Tree.nil) := by
        rw [mkdirSync_cons]
        simp [Tree.update, mkdirSync_nest a k, Tree.cons]
      have hrd : readdirSync (t :: List.replicate k a) (Tree.dir t (nest a (k + 1)) Tree.nil) =
          Except.ok [⟨a, true⟩] := by
        have hl : lookup (t :: List.replicate k a) (Tree.dir t (nest a (k + 1)) Tree.nil) =
            some (Node.dir (nest a 1)) := by
          rw [lookup_cons_dir t _ _ (nest a (k + 1)) (by simp [Tree.find])]
          exact lookup_nest a k 1
        rw [readdirSync_dir _ _ _ hl]
        rfl
      have hS : (t :: List.replicate k a) ++ [a] = t :: List.replicate (k + 1) a := by
        rw [List.replicate_succ' k a, List.cons_append]
      have hD : (t :: List.replicate (k + 1) a) ++ [a] = t :: List.replicate (k + 1 + 1) a := by
        rw [List.replicate_succ' (k + 1) a, List.cons_append]
      have hnext : copyDir f ((t :: List.replicate k a) ++ [a])
          ((t :: List.replicate (k + 1) a) ++ [a]) (Tree.dir t (nest a (k + 1)) Tree.nil) =
          none := by
        rw [hS, hD]
        exact ih (k + 1)
      simp only [copyDir, hmk, hrd, copyEntries, ha, if_false, if_true, hnext]

/-! ## Excluded names never reach the destination -/

theorem mkdirSync_clean (p : Path) :
    ∀ fs fs1 : Tree, fs.Clean → (∀ x ∈ p, x ∉ excludedNames) →
      mkdirSync p fs = Except.ok fs1 → fs1.Clean := by
  induction p with
  | nil =>
      intro fs fs1 hc _ h
      simp only [mkdirSync, Except.ok.injEq] at h
      exact h ▸ hc
  | cons n p ih =>
      intro fs fs1 hc hp h
      obtain ⟨sub, s, hsub, hs, -, -, -, hclean⟩ := mkdirSync_cons_ok n p fs fs1 h
      have hsubc : sub.Clean := by
        rcases hsub with ⟨-, rfl⟩ | hdir
        · trivial
        · exact Tree.clean_of_find n fs _ hc hdir
      exact hclean hc (hp n (by simp))
        (ih sub s hsubc (fun x hx => hp x (by simp [hx])) hs)

theorem writeFile_clean (c : List UInt8) (p : Path) :
    ∀ fs fs1 : Tree, fs.Clean → (∀ x ∈ p, x ∉ excludedNames) →
      writeFile c p fs = Except.ok fs1 → fs1.Clean := by
  induction p with
  | nil => intro fs fs1 _ _ h; simp [writeFile] at h
  | cons n p ih =>
      intro fs fs1 hc hp h
      obtain ⟨-, hcase⟩ := writeFile_cons_ok c n p fs fs1 h
      rcases hcase with ⟨-, -, -, -, hclean⟩ | ⟨sub, s, -, hdir, hs, -, -, hclean⟩
      · exact hclean hc (hp n (by simp))
      · exact hclean hc (hp n (by simp))
          (ih sub s (Tree.clean_of_find n fs _ hc hdir) (fun x hx => hp x (by simp [hx])) hs)

theorem mkdirSync_cleanDir (D q : Path) (fs fs1 : Tree) (h : CleanDir D fs)
    (hq : ∀ x ∈ q, x ∉ excludedNames) (hm : mkdirSync (D ++ q) fs = Except.ok fs1) :
    CleanDir D fs1 := by
  obtain ⟨t, hl, hc⟩ := h
  rw [mkdirSync_append D q fs t hl] at hm
  cases hs : mkdirSync q t with
  | error e => simp [hs] at hm
  | ok s =>
      simp only [hs, Except.ok.injEq] at hm
      subst hm
      exact ⟨s, lookup_put_same D s t fs hl, mkdirSync_clean q t s hc hq hs⟩

theorem writeFile_cleanDir (c : List UInt8) (D q : Path) (fs fs1 : Tree) (h : CleanDir D fs)
    (hq : ∀ x ∈ q, x ∉ excludedNames) (hm : writeFile c (D ++ q) fs = Except.ok fs1) :
    CleanDir D fs1 := by
  obtain ⟨t, hl, hc⟩ := h
  rw [writeFile_append c D q fs t hl] at hm
  cases hs : writeFile c q t with
  | error e => simp [hs] at hm
  | ok s =>
      simp only [hs, Except.ok.injEq] at hm
      subst hm
      exact ⟨s, lookup_put_same D s t fs hl, writeFile_clean c q t s hc hq hs⟩

theorem copyEntries_cleanDir (D q S : Path) (self : Path → Path → Tree → Option CopyResult)
    (hq : ∀ x ∈ q, x ∉ excludedNames)
    (hself : ∀ (S1 q1 : Path) (fs : Tree) (r : CopyResult), CleanDir D fs →
      (∀ x ∈ q1, x ∉ excludedNames) → self S1 (D ++ q1) fs = some r → CleanDir D r.fs)
    (es : List Dirent) :
    ∀ (fs : Tree) (r : CopyResult), CleanDir D fs →
      copyEntries self S (D ++ q) es fs = some r → CleanDir D r.fs := by
  induction es with
  | nil =>
      intro fs r hI h
      simp only [copyEntries, Option.some.injEq] at h
      subst h
      exact hI
  | cons e es ih =>
      intro fs r hI h
      by_cases hex : e.name ∈ excludedNames
      · simp only [copyEntries, hex, if_true] at h
        exact ih fs r hI h
      · have hq1 : ∀ x ∈ q ++ [e.name], x ∉ excludedNames := by
          intro x hx
          rcases List.mem_append.mp hx with hx | hx
          · exact hq x hx
          · simp only [List.mem_singleton] at hx
            exact hx ▸ hex
        simp only [copyEntries, hex, if_false, List.append_assoc] at h
        by_cases hdir : e.isDirectory = true
        · simp only [hdir, if_true] at h
          cases hc : self (S ++ [e.name]) (D ++ (q ++ [e.name])) fs with
          | none => simp [hc] at h
          | some r1 =>
              have hI1 := hself _ _ fs r1 hI hq1 hc
              cases r1 with
              | threw err fs1 =>
                  simp only [hc, Option.some.injEq] at h
                  subst h
                  exact hI1
              | done fs1 =>
                  simp only [hc] at h
                  exact ih fs1 r hI1 h
        · simp only [hdir] at h
          cases hc : copyFileSync (S ++ [e.name]) (D ++ (q ++ [e.name])) fs with
          | error err =>
              simp only [hc, Bool.false_eq_true, if_false, Option.some.injEq] at h
              subst h
              exact hI
          | ok fs1 =>
              simp only [hc, Bool.false_eq_true, if_false] at h
              have hI1 : CleanDir D fs1 := by
                unfold copyFileSync at hc
                cases hl : lookup (S ++ [e.name]) fs with
                | none => simp [hl] at hc
                | some x =>
                    cases x with
                    | dir t => simp [hl] at hc
                    | file c =>
                        simp only [hl] at hc
                        exact writeFile_cleanDir c D _ fs fs1 hI hq1 hc
              exact ih fs1 r hI1 h

theorem copyDir_cleanDir (D : Path) (fuel : Nat) :
    ∀ (S q : Path) (fs : Tree) (r : CopyResult), CleanDir D fs →
      (∀ x ∈ q, x ∉ excludedNames) → copyDir fuel S (D ++ q) fs = some r →
      CleanDir D r.fs := by
  induction fuel with
  | zero => intro S q fs r _ _ h; simp [copyDir] at h
  | succ f ih =>
      intro S q fs r hI hq h
      simp only [copyDir] at h
      cases hm : mkdirSync (D ++ q) fs with
      | error e =>
          simp only [hm, Option.some.injEq] at h
          subst h
          exact hI
      | ok fs1 =>
          have hI1 := mkdirSync_cleanDir D q fs fs1 hI hq hm
          simp only [hm] at h
          cases hr : readdirSync S fs1 with
          | error e =>
              simp only [hr, Option.some.injEq] at h
              subst h
              exact hI1
          | ok es =>
              simp only [hr] at h
              exact copyEntries_cleanDir D q S (copyDir f) hq ih es fs1 r hI1 h

theorem lookup_clean_excluded (r : Path) :
    ∀ t : Tree, t.Clean → hasExcluded r = true → lookup r t = none := by
  induction r with
  | nil => intro t _ h; simp [hasExcluded] at h
  | cons n r ih =>
      intro t hc h
      cases hf : t.find n with
      | none => exact lookup_cons_none _ _ _ hf
      | some x =>
          have hn : n ∉ excludedNames := by
            intro hex
            have hnone : t.find n = none := by
              induction t with
              | nil => rfl
              | file m c rest ih2 =>
                  by_cases hm : m = n
                  · exact absurd (hm ▸ hex) hc.1
                  · simp only [Tree.find, hm, if_false] at hf ⊢
                    exact ih2 hc.2 hf
              | dir m sub rest _ ih2 =>
                  by_cases hm : m = n
                  · exact absurd (hm ▸ hex) hc.1
                  · simp only [Tree.find, hm, if_false] at hf ⊢
                    exact ih2 hc.2.2 hf
            rw [hnone] at hf
            exact Option.noConfusion hf
          have hr : hasExcluded r = true := by
            simpa [hasExcluded, hn] using h
          cases x with
          | file c =>
              rw [lookup_cons_file _ _ _ _ hf]
              have : r ≠ [] := by
                intro e
                subst e
                simp [hasExcluded] at hr
              simp [this]
          | dir sub =>
              rw [lookup_cons_dir _ _ _ _ hf]
              exact ih sub (Tree.clean_of_find n t _ hc hf) hr

theorem Tree.clean_prune (t : Tree) : t.prune.Clean := by
  induction t with
  | nil => trivial
  | file m c rest ih =>
      by_cases hex : m ∈ excludedNames
      · simpa [Tree.prune, hex] using ih
      · rw [Tree.prune, if_neg hex]
        exact ⟨hex, ih⟩
  | dir m sub rest ihs ih =>
      by_cases hex : m ∈ excludedNames
      · simpa [Tree.prune, hex] using ih
      · rw [Tree.prune, if_neg hex]
        exact ⟨hex, ihs, ih⟩

theorem copyDir_no_excluded (fuel : Nat) (S D : Path) (fs : Tree) (r : CopyResult)
    (hD : lookup D fs = none) (h : copyDir fuel S D fs = some r) :
    ∀ rel, hasExcluded rel = true → lookup (D ++ rel) r.fs = none := by
  have key : lookup D r.fs = none ∨ CleanDir D r.fs := by
    cases fuel with
    | zero => simp [copyDir] at h
    | succ f =>
        simp only [copyDir] at h
        cases hm : mkdirSync D fs with
        | error e =>
            simp only [hm, Option.some.injEq] at h
            subst h
            exact Or.inl hD
        | ok fs1 =>
            have hI1 : CleanDir D fs1 := ⟨Tree.nil, mkdirSync_creates D fs fs1 hD hm, trivial⟩
            simp only [hm] at h
            right
            cases hr : readdirSync S fs1 with
            | error e =>
                simp only [hr, Option.some.injEq] at h
                subst h
                exact hI1
            | ok es =>
                simp only [hr] at h
                have := copyEntries_cleanDir D [] S (copyDir f) (by simp)
                  (copyDir_cleanDir D f) es fs1 r hI1 (by simpa using h)
                exact this
  intro rel hrel
  rcases key with hnone | ⟨t, hl, hc⟩
  · exact lookup_append_none D rel r.fs hnone
  · rw [lookup_append D rel r.fs t hl]
    exact lookup_clean_excluded rel t hc hrel

/-! ## Termination -/

theorem mkdirSync_depth (p : Path) :
    ∀ fs fs1 : Tree, mkdirSync p fs = Except.ok fs1 → fs1.depth ≤ max fs.depth p.length := by
  induction p with
  | nil =>
      intro fs fs1 h
      simp only [mkdirSync, Except.ok.injEq] at h
      subst h
      simp
  | cons n p ih =>
      intro fs fs1 h
      obtain ⟨sub, s, hsub, hs, -, -, hdepth, -⟩ := mkdirSync_cons_ok n p fs fs1 h
      have h1 := ih sub s hs
      have h2 : sub.depth + 1 ≤ max fs.depth 1 := by
        rcases hsub with ⟨-, rfl⟩ | hdir
        · simp [Tree.depth]
        · have := Tree.depth_of_find n fs _ hdir
          simp only [Node.depth] at this
          omega
      simp only [List.length_cons]
      omega

theorem writeFile_depth (c : List UInt8) (p : Path) :
    ∀ fs fs1 : Tree, writeFile c p fs = Except.ok fs1 → fs1.depth ≤ max fs.depth p.length := by
  induction p with
  | nil => intro fs fs1 h; simp [writeFile] at h
  | cons n p ih =>
      intro fs fs1 h
      obtain ⟨-, hcase⟩ := writeFile_cons_ok c n p fs fs1 h
      rcases hcase with ⟨-, -, -, hdepth, -⟩ | ⟨sub, s, -, hdir, hs, -, hdepth, -⟩
      · simp only [List.length_cons]
        omega
      · have h1 := ih sub s hs
        have h2 := Tree.depth_of_find n fs _ hdir
        simp only [Node.depth] at h2
        simp only [List.length_cons]
        omega

theorem copyFileSync_ok (src dest : Path) (fs fs1 : Tree)
    (h : copyFileSync src dest fs = Except.ok fs1) :
    ∃ c, lookup src fs = some (Node.file c) ∧ writeFile c dest fs = Except.ok fs1 := by
  unfold copyFileSync at h
  cases hl : lookup src fs with
  | none => simp [hl] at h
  | some x =>
      cases x with
      | dir t => simp [hl] at h
      | file c =>
          simp only [hl] at h
          exact ⟨c, rfl, h⟩

theorem Tree.depth_pos_of_entries (t : Tree) (h : t.entries ≠ []) : 1 ≤ t.depth := by
  cases t with
  | nil => simp [Tree.entries] at h
  | file n c rest => simp only [Tree.depth]; omega
  | dir n sub rest => simp only [Tree.depth]; omega

theorem readdirSync_ok (p : Path) (fs : Tree) (es : List Dirent)
    (h : readdirSync p fs = Except.ok es) :
    ∃ t, lookup p fs = some (Node.dir t) ∧ es = t.entries := by
  unfold readdirSync at h
  cases hl : lookup p fs with
  | none => simp [hl] at h
  | some x =>
      cases x with
      | file c => simp [hl] at h
      | dir t =>
          simp only [hl, Except.ok.injEq] at h
          exact ⟨t, rfl, h.symm⟩

theorem copyEntries_returns_short (H : Nat) (S D : Path)
    (self : Path → Path → Tree → Option CopyResult) (hDS : D.length ≤ S.length)
    (hself : ∀ (S1 D1 : Path) (fs : Tree), D1.length ≤ S1.length →
      S1.length = S.length + 1 → S1.length ≤ H → fs.depth ≤ H →
      ∃ r, self S1 D1 fs = some r ∧ r.fs.depth ≤ H)
    (es : List Dirent) :
    ∀ fs : Tree, fs.depth ≤ H → (es ≠ [] → S.length + 1 ≤ H) →
      ∃ r, copyEntries self S D es fs = some r ∧ r.fs.depth ≤ H := by
  induction es with
  | nil => intro fs hfs _; exact ⟨CopyResult.done fs, rfl, hfs⟩
  | cons e es ih =>
      intro fs hfs hH
      have hH1 : S.length + 1 ≤ H := hH (by simp)
      by_cases hex : e.name ∈ excludedNames
      · simp only [copyEntries, hex, if_true]
        exact ih fs hfs (fun _ => hH1)
      · by_cases hdir : e.isDirectory = true
        · simp only [copyEntries, hex, if_false, hdir, if_true]
          obtain ⟨r1, hr1, hd1⟩ := hself (S ++ [e.name]) (D ++ [e.name]) fs
            (by simp; omega) (by simp) (by simp; omega) hfs
          rw [hr1]
          cases r1 with
          | threw err fs1 => exact ⟨_, rfl, hd1⟩
          | done fs1 => exact ih fs1 hd1 (fun _ => hH1)
        · simp only [copyEntries, hex, if_false, hdir, Bool.false_eq_true]
          cases hc : copyFileSync (S ++ [e.name]) (D ++ [e.name]) fs with
          | error err => exact ⟨_, rfl, hfs⟩
          | ok fs1 =>
              obtain ⟨c, -, hw⟩ := copyFileSync_ok _ _ fs fs1 hc
              have hd := writeFile_depth c _ fs fs1 hw
              simp only [List.length_append, List.length_singleton] at hd
              exact ih fs1 (by omega) (fun _ => hH1)

theorem copyDir_returns_short (fuel : Nat) :
    ∀ (S D : Path) (fs : Tree), D.length ≤ S.length →
      max fs.depth S.length < fuel + S.length →
      ∃ r, copyDir fuel S D fs = some r ∧ r.fs.depth ≤ max fs.depth S.length := by
  induction fuel with
  | zero => intro S D fs _ h; omega
  | succ f ih =>
      intro S D fs hDS hfuel
      simp only [copyDir]
      cases hm : mkdirSync D fs with
      | error e => exact ⟨_, rfl, by simp [CopyResult.fs]⟩
      | ok fs1 =>
          have hd1 := mkdirSync_depth D fs fs1 hm
          have hfs1 : fs1.depth ≤ max fs.depth S.length := by omega
          simp only []
          cases hr : readdirSync S fs1 with
          | error e => exact ⟨_, rfl, hfs1⟩
          | ok es =>
              obtain ⟨t, hl, hes⟩ := readdirSync_ok S fs1 es hr
              have hne : es ≠ [] → S.length + 1 ≤ max fs.depth S.length := by
                intro h
                have h1 := Tree.depth_pos_of_entries t (hes ▸ h)
                have h2 := lookup_depth S fs1 _ hl
                simp only [Node.depth] at h2
                omega
              refine copyEntries_returns_short (max fs.depth S.length) S D (copyDir f) hDS ?_
                es fs1 hfs1 hne
              intro S1 D1 g hD1 hS1 hS1H hg
              obtain ⟨r, hr, hd⟩ := ih S1 D1 g hD1 (by omega)
              exact ⟨r, hr, by omega⟩

theorem diverge_extend_right (p D : Path) (x : Path) (h : Diverge p D) : Diverge p (D ++ x) := by
  have := diverge_append p D [] x h
  simpa using this

theorem copyEntries_returns_diverge (S D : Path) (T fs0 : Tree) (f : Nat)
    (hdiv : Diverge S D) (hT : lookup S fs0 = some (Node.dir T)) (hf : T.depth ≤ f)
    (hself : ∀ (S1 D1 : Path) (fs : Tree), Diverge S1 D1 →
      (∀ T1, lookup S1 fs = some (Node.dir T1) → T1.depth < f) → 0 < f →
      ∃ r, copyDir f S1 D1 fs = some r ∧ ∀ p, Diverge p D1 → lookup p r.fs = lookup p fs)
    (es : List Dirent) :
    ∀ fs : Tree, (es ≠ [] → 0 < f) → (∀ p, Diverge p D → lookup p fs = lookup p fs0) →
      ∃ r, copyEntries (copyDir f) S D es fs = some r ∧
        ∀ p, Diverge p D → lookup p r.fs = lookup p fs0 := by
  induction es with
  | nil => intro fs _ hfr; exact ⟨CopyResult.done fs, rfl, hfr⟩
  | cons e es ih =>
      intro fs hpos hfr
      have hf0 : 0 < f := hpos (by simp)
      by_cases hex : e.name ∈ excludedNames
      · simp only [copyEntries, hex, if_true]
        exact ih fs (fun _ => hf0) hfr
      · by_cases hdir : e.isDirectory = true
        · simp only [copyEntries, hex, if_false, hdir, if_true]
          have hsub : ∀ T1, lookup (S ++ [e.name]) fs = some (Node.dir T1) → T1.depth < f := by
            intro T1 h1
            rw [hfr _ (diverge_child_left S D e.name hdiv), lookup_child S e.name fs0 T hT] at h1
            have := Tree.depth_of_find e.name T _ h1
            simp only [Node.depth] at this
            omega
          obtain ⟨r1, hr1, hfr1⟩ := hself (S ++ [e.name]) (D ++ [e.name]) fs
            (diverge_append S D _ _ hdiv) hsub hf0
          have hfr2 : ∀ p, Diverge p D → lookup p r1.fs = lookup p fs0 := by
            intro p hp
            rw [hfr1 p (diverge_extend_right p D _ hp), hfr p hp]
          rw [hr1]
          cases r1 with
          | threw err fs1 => exact ⟨_, rfl, hfr2⟩
          | done fs1 => exact ih fs1 (fun _ => hf0) hfr2
        · simp only [copyEntries, hex, if_false, hdir, Bool.false_eq_true]
          cases hc : copyFileSync (S ++ [e.name]) (D ++ [e.name]) fs with
          | error err => exact ⟨_, rfl, hfr⟩
          | ok fs1 =>
              obtain ⟨c, -, hw⟩ := copyFileSync_ok _ _ fs fs1 hc
              refine ih fs1 (fun _ => hf0) ?_
              intro p hp
              rw [writeFile_frame c _ p fs fs1 hw (diverge_extend_right p D _ hp).1, hfr p hp]

theorem copyDir_returns_diverge (fuel : Nat) :
    ∀ (S D : Path) (fs : Tree), Diverge S D →
      (∀ T, lookup S fs = some (Node.dir T) → T.depth < fuel) → 0 < fuel →
      ∃ r, copyDir fuel S D fs = some r ∧ ∀ p, Diverge p D → lookup p r.fs = lookup p fs := by
  induction fuel with
  | zero => intro S D fs _ _ h; omega
  | succ f ih =>
      intro S D fs hdiv hT _
      simp only [copyDir]
      cases hm : mkdirSync D fs with
      | error e => exact ⟨_, rfl, fun _ _ => rfl⟩
      | ok fs1 =>
          have hfr1 : ∀ p, Diverge p D → lookup p fs1 = lookup p fs :=
            fun p hp => mkdirSync_frame D p fs fs1 hm hp.1
          simp only []
          cases hr : readdirSync S fs1 with
          | error e => exact ⟨_, rfl, hfr1⟩
          | ok es =>
              obtain ⟨t, hl, hes⟩ := readdirSync_ok S fs1 es hr
              have hl0 : lookup S fs = some (Node.dir t) := by
                rw [← mkdirSync_frame D S fs fs1 hm hdiv.1, hl]
              have htf : t.depth ≤ f := by
                have := hT t hl0
                omega
              have hpos : es ≠ [] → 0 < f := by
                intro h
                have := Tree.depth_pos_of_entries t (hes ▸ h)
                omega
              obtain ⟨r, hr1, hfr⟩ := copyEntries_returns_diverge S D t fs f hdiv hl0 htf ih es
                fs1 hpos hfr1
              exact ⟨r, hr1, hfr⟩

theorem copyEntries_mono (self self1 : Path → Path → Tree → Option CopyResult)
    (h : ∀ S D fs r, self S D fs = some r → self1 S D fs = some r) (S D : Path)
    (es : List Dirent) :
    ∀ (fs : Tree) (r : CopyResult), copyEntries self S D es fs = some r →
      copyEntries self1 S D es fs = some r := by
  induction es with
  | nil => intro fs r hr; exact hr
  | cons e es ih =>
      intro fs r hr
      by_cases hex : e.name ∈ excludedNames
      · simp only [copyEntries, hex, if_true] at hr ⊢
        exact ih fs r hr
      · by_cases hdir : e.isDirectory = true
        · simp only [copyEntries, hex, if_false, hdir, if_true] at hr ⊢
          cases hc : self (S ++ [e.name]) (D ++ [e.name]) fs with
          | none => simp [hc] at hr
          | some r1 =>
              rw [h _ _ _ _ hc]
              rw [hc] at hr
              cases r1 with
              | threw err fs1 => exact hr
              | done fs1 => exact ih fs1 r hr
        · simp only [copyEntries, hex, if_false, hdir, Bool.false_eq_true] at hr ⊢
          cases hc : copyFileSync (S ++ [e.name]) (D ++ [e.name]) fs with
          | error err => rw [hc] at hr; exact hr
          | ok fs1 =>
              rw [hc] at hr
              exact ih fs1 r hr

theorem copyDir_mono_succ (f : Nat) :
    ∀ (S D : Path) (fs : Tree) (r : CopyResult), copyDir f S D fs = some r →
      copyDir (f + 1) S D fs = some r := by
  induction f with
  | zero => intro S D fs r h; simp [copyDir] at h
  | succ f ih =>
      intro S D fs r h
      rw [copyDir] at h ⊢
      cases hm : mkdirSync D fs with
      | error e => rw [hm] at h; exact h
      | ok fs1 =>
          rw [hm] at h
          simp only [] at h ⊢
          cases hr : readdirSync S fs1 with
          | error e => rw [hr] at h; exact h
          | ok es =>
              rw [hr] at h
              exact copyEntries_mono (copyDir f) (copyDir (f + 1)) ih S D es fs1 r h

theorem copyDir_mono (f g : Nat) (hfg : f ≤ g) (S D : Path) (fs : Tree) (r : CopyResult)
    (h : copyDir f S D fs = some r) : copyDir g S D fs = some r := by
  induction hfg with
  | refl => exact h
  | step _ ih => exact copyDir_mono_succ _ S D fs r ih

theorem copyDir_returns (fs : Tree) (S D : Path) (fuel : Nat) (h : S <+: D → D = S)
    (hfuel : fs.depth < fuel) :
    ∃ r, copyDir fuel S D fs = some r ∧
      (Diverge S D → ∀ p, Diverge p D → lookup p r.fs = lookup p fs) := by
  by_cases hlen : D.length ≤ S.length
  · by_cases hdiv : Diverge S D
    · obtain ⟨r, hr, hfr⟩ := copyDir_returns_diverge fuel S D fs hdiv
        (fun T hT => by
          have := lookup_depth S fs _ hT
          simp only [Node.depth] at this
          omega) (by omega)
      exact ⟨r, hr, fun _ => hfr⟩
    · obtain ⟨r, hr, -⟩ := copyDir_returns_short fuel S D fs hlen (by omega)
      exact ⟨r, hr, fun hd => absurd hd hdiv⟩
  · have hdiv : Diverge S D := by
      refine ⟨fun hp => ?_, fun hp => ?_⟩
      · have := h hp
        rw [this] at hlen
        exact hlen (le_refl _)
      · exact hlen hp.length_le
    obtain ⟨r, hr, hfr⟩ := copyDir_returns_diverge fuel S D fs hdiv
      (fun T hT => by
        have := lookup_depth S fs _ hT
        simp only [Node.depth] at this
        omega) (by omega)
    exact ⟨r, hr, fun _ => hfr⟩

theorem copyEntries_congr (self self1 : Path → Path → Tree → Option CopyResult) (S D : Path)
    (es : List Dirent)
    (h : ∀ e ∈ es, e.isDirectory = true → e.name ∉ excludedNames →
      ∀ g, self (S ++ [e.name]) (D ++ [e.name]) g = self1 (S ++ [e.name]) (D ++ [e.name]) g) :
    ∀ fs : Tree, copyEntries self S D es fs = copyEntries self1 S D es fs := by
  induction es with
  | nil => intro fs; rfl
  | cons e es ih =>
      intro fs
      have ih1 := ih (fun e1 he1 => h e1 (List.mem_cons_of_mem _ he1))
      by_cases hex : e.name ∈ excludedNames
      · simp only [copyEntries, hex, if_true]
        exact ih1 fs
      · by_cases hdir : e.isDirectory = true
        · simp only [copyEntries, hex, if_false, hdir, if_true]
          rw [h e (List.mem_cons_self _ _) hdir hex fs]
          cases self1 (S ++ [e.name]) (D ++ [e.name]) fs with
          | none => rfl
          | some r1 =>
              cases r1 with
              | threw err fs1 => rfl
              | done fs1 => exact ih1 fs1
        · simp only [copyEntries, hex, if_false, hdir, Bool.false_eq_true]
          cases copyFileSync (S ++ [e.name]) (D ++ [e.name]) fs with
          | error err => rfl
          | ok fs1 => exact ih1 fs1

theorem diverge_child_left_gen (S D rel : Path) (h : Diverge S D) : Diverge (S ++ rel) D := by
  have := diverge_append S D rel [] h
  simpa using this

/-! ## Printing changes nothing but the console -/

theorem log_fs (m c : String) (w : Proc) : (log m c w).fs = w.fs := rfl

theorem logAll_fs (lines : List (String × String)) :
    ∀ w : Proc, (logAll lines w).fs = w.fs := by
  induction lines with
  | nil => intro w; rfl
  | cons l lines ih =>
      intro w
      simp only [logAll, List.foldl] at ih ⊢
      rw [ih]
      rfl

theorem logAll_cwd (lines : List (String × String)) :
    ∀ w : Proc, (logAll lines w).cwd = w.cwd := by
  induction lines with
  | nil => intro w; rfl
  | cons l lines ih =>
      intro w
      simp only [logAll, List.foldl] at ih ⊢
      rw [ih]
      rfl

theorem logAll_trace (lines : List (String × String)) :
    ∀ w : Proc, (logAll lines w).trace = w.trace ++ lines.map (fun l => Event.log (colored l)) := by
  induction lines with
  | nil => intro w; simp [logAll]
  | cons l lines ih =>
      intro w
      simp only [logAll, List.foldl] at ih ⊢
      rw [ih]
      simp [log, colored]

theorem actions_append (a b : List Event) : actions (a ++ b) = actions a ++ actions b := by
  simp [actions]

theorem actions_logs (lines : List (String × String)) :
    actions (lines.map (fun l => Event.log (colored l))) = [] := by
  induction lines with
  | nil => rfl
  | cons l lines ih => simpa [actions, Event.isLog] using ih

theorem actions_log (m c : String) (w : Proc) : actions (log m c w).trace = actions w.trace := by
  simp [log, actions, Event.isLog]

theorem actions_logAll (lines : List (String × String)) (w : Proc) :
    actions (logAll lines w).trace = actions w.trace := by
  rw [logAll_trace, actions_append, actions_logs, List.append_nil]

theorem quiet_exit_logAll (code : Nat) (lines : List (String × String)) (w : Proc) :
    Quiet w (Step.exit code (logAll lines w) : Step Unit) :=
  ⟨_, rfl, logAll_fs lines w, logAll_cwd lines w, actions_logAll lines w⟩

theorem quiet_exit_log (code : Nat) (m c : String) (w : Proc) :
    Quiet w (Step.exit code (log m c w) : Step Unit) :=
  ⟨_, rfl, rfl, rfl, actions_log m c w⟩

/-! ## The branches of main -/

theorem validateProjectName_eq (name : String) (w : Proc) :
    validateProjectName name w =
      if matchesNamePattern name = true then Step.ok name w
      else Step.exit 1 (logAll nameRuleLines w) := by
  unfold validateProjectName
  rw [regexTest_validPattern]
  cases matchesNamePattern name <;> simp

theorem main_help (env : Env) (fuel : Nat) (a : String) (rest : List String) (w : Proc)
    (h : a = "--help" ∨ a = "-h") : main env fuel (a :: rest) w = Step.exit 0 (showHelp w) := by
  simp only [main, h, if_true]

theorem main_bad_name (env : Env) (fuel : Nat) (t name : String) (rest : List String) (w : Proc)
    (ht : ¬ (t = "--help" ∨ t = "-h")) (hn : matchesNamePattern name = false) :
    main env fuel (t :: name :: rest) w = Step.exit 1 (logAll nameRuleLines w) := by
  simp only [main, ht, if_false, validateProjectName_eq, hn, Bool.false_eq_true]

theorem main_good_name (env : Env) (fuel : Nat) (t name : String) (rest : List String)
    (w : Proc) (ht : ¬ (t = "--help" ∨ t = "-h")) (hn : matchesNamePattern name = true) :
    main env fuel (t :: name :: rest) w =
      match getProperty TEMPLATES t with
      | JSValue.undefined => Step.exit 1 (logAll (unknownTemplateLines t) w)
      | JSValue.inherited _ => Step.uncaught pathTypeError w
      | JSValue.template template =>
          materialize env fuel t name (destinationOf rest) template w := by
  simp only [main, ht, if_false, validateProjectName_eq, hn, if_true]

theorem templates_lookup_cases (t : String) (tpl : Template)
    (h : TEMPLATES.lookup t = some tpl) :
    (t = "backend-node" ∧
      tpl = ⟨"Backend_nodejs-Template/Backend_nodejs-Template", "Node.js Backend",
        "scripts/setup-project.js"⟩) ∨
    (t = "backend-python" ∧
      tpl = ⟨"Backend_python-Template", "Python Backend", "scripts/setup_project.py"⟩) ∨
    (t = "frontend" ∧
      tpl = ⟨"Frontend-Template/Frontend-Template", "React Frontend",
        "scripts/setup-project.js"⟩) := by
  unfold TEMPLATES at h
  by_cases h1 : t = "backend-node"
  · subst h1
    simp [List.lookup] at h
    exact Or.inl ⟨rfl, h.symm⟩
  · by_cases h2 : t = "backend-python"
    · subst h2
      simp [List.lookup] at h
      exact Or.inr (Or.inl ⟨rfl, h.symm⟩)
    · by_cases h3 : t = "frontend"
      · subst h3
        simp [List.lookup] at h
        exact Or.inr (Or.inr ⟨rfl, h.symm⟩)
      · have e1 : (t == "backend-node") = false := by simpa using h1
        have e2 : (t == "backend-python") = false := by simpa using h2
        have e3 : (t == "frontend") = false := by simpa using h3
        simp [List.lookup, e1, e2, e3] at h

theorem templates_lookup_not_help (t : String) (tpl : Template)
    (h : TEMPLATES.lookup t = some tpl) : ¬ (t = "--help" ∨ t = "-h") := by
  rcases templates_lookup_cases t tpl h with ⟨rfl, -⟩ | ⟨rfl, -⟩ | ⟨rfl, -⟩ <;> decide

theorem getProperty_of_lookup (t : String) (tpl : Template)
    (h : TEMPLATES.lookup t = some tpl) : getProperty TEMPLATES t = JSValue.template tpl := by
  simp [getProperty, h]

theorem getProperty_of_lookup_none (t : String) (h : TEMPLATES.lookup t = none) :
    getProperty TEMPLATES t =
      if t ∈ objectPrototypeKeys then JSValue.inherited t else JSValue.undefined := by
  simp [getProperty, h]

theorem getProperty_template (t : String) (tpl : Template)
    (h : getProperty TEMPLATES t = JSValue.template tpl) : TEMPLATES.lookup t = some tpl := by
  unfold getProperty at h
  cases hl : TEMPLATES.lookup t with
  | none =>
      rw [hl] at h
      simp only [] at h
      split at h <;> exact JSValue.noConfusion h
  | some x =>
      rw [hl] at h
      simp only [JSValue.template.injEq] at h
      rw [h]

theorem announceCopy_fs (tpl : Template) (name : String) (src dst : Path) (w : Proc) :
    (announceCopy tpl name src dst w).fs = w.fs := by
  simp only [announceCopy, logAll_fs]

theorem announceCopy_cwd (tpl : Template) (name : String) (src dst : Path) (w : Proc) :
    (announceCopy tpl name src dst w).cwd = w.cwd := by
  simp only [announceCopy, logAll_cwd]

theorem announceCopy_actions (tpl : Template) (name : String) (src dst : Path) (w : Proc) :
    actions (announceCopy tpl name src dst w).trace = actions w.trace ++ [Event.copy src dst] := by
  simp only [announceCopy, actions_append, actions_logAll]
  rfl

theorem chdir_dir (dir : Path) (w : Proc) (h : isDirectory dir w.fs = true) :
    chdir dir w = Except.ok ⟨w.fs, dir, w.trace ++ [Event.chdir dir]⟩ := by
  unfold isDirectory at h
  unfold chdir
  cases hl : lookup dir w.fs with
  | none => rw [hl] at h; exact Bool.noConfusion h
  | some x =>
      cases x with
      | file c => rw [hl] at h; exact Bool.noConfusion h
      | dir t => rfl

theorem tryExec_success (env : Env) (cmd : String) (w : Proc)
    (h : (env.run cmd w.cwd w.fs).1 = ExecResult.success) :
    tryExec env cmd w =
      ⟨(env.run cmd w.cwd w.fs).2, w.cwd, w.trace ++ [Event.exec cmd w.cwd]⟩ := by
  simp only [tryExec, execSync, h]

theorem tryExec_failure (env : Env) (cmd : String) (w : Proc)
    (h : (env.run cmd w.cwd w.fs).1 ≠ ExecResult.success) :
    tryExec env cmd w =
      ⟨(env.run cmd w.cwd w.fs).2, w.cwd,
        w.trace ++ [Event.exec cmd w.cwd, Event.log (colored setupWarning)]⟩ := by
  simp only [tryExec, execSync]
  cases hr : (env.run cmd w.cwd w.fs).1 with
  | success => exact absurd hr h
  | nonZero k => simp [log, colored]
  | spawnError => simp [log, colored]

theorem tryExec_fs (env : Env) (cmd : String) (w : Proc) :
    (tryExec env cmd w).fs = (env.run cmd w.cwd w.fs).2 := by
  by_cases h : (env.run cmd w.cwd w.fs).1 = ExecResult.success
  · rw [tryExec_success env cmd w h]
  · rw [tryExec_failure env cmd w h]

theorem tryExec_cwd (env : Env) (cmd : String) (w : Proc) : (tryExec env cmd w).cwd = w.cwd := by
  by_cases h : (env.run cmd w.cwd w.fs).1 = ExecResult.success
  · rw [tryExec_success env cmd w h]
  · rw [tryExec_failure env cmd w h]

theorem tryExec_actions (env : Env) (cmd : String) (w : Proc) :
    actions (tryExec env cmd w).trace = actions w.trace ++ [Event.exec cmd w.cwd] := by
  by_cases h : (env.run cmd w.cwd w.fs).1 = ExecResult.success
  · rw [tryExec_success env cmd w h]
    simp [actions, Event.isLog]
  · rw [tryExec_failure env cmd w h]
    simp [actions, Event.isLog]

theorem tryExec_trace (env : Env) (cmd : String) (w : Proc) :
    ∃ mid, (tryExec env cmd w).trace = w.trace ++ mid := by
  by_cases h : (env.run cmd w.cwd w.fs).1 = ExecResult.success
  · rw [tryExec_success env cmd w h]
    exact ⟨_, rfl⟩
  · rw [tryExec_failure env cmd w h]
    exact ⟨_, rfl⟩

theorem tryExec_warning (env : Env) (cmd : String) (w : Proc)
    (h : (env.run cmd w.cwd w.fs).1 ≠ ExecResult.success) :
    Event.log (colored setupWarning) ∈ (tryExec env cmd w).trace := by
  rw [tryExec_failure env cmd w h]
  simp

theorem runSetup_ok (env : Env) (tpl : Template) (name : String) (dst : Path) (w : Proc)
    (hdst : isDirectory dst w.fs = true)
    (horig : isDirectory w.cwd (env.run (setupCommand tpl name) dst w.fs).2 = true) :
    runSetup env tpl name dst w = Step.ok () (setupDone env tpl name dst w) := by
  have h1 := chdir_dir dst (log "  🔧 Running setup script..." "cyan" w) hdst
  have h2 := chdir_dir (log "  🔧 Running setup script..." "cyan" w).cwd
    (tryExec env (setupCommand tpl name)
      ⟨(log "  🔧 Running setup script..." "cyan" w).fs, dst,
        (log "  🔧 Running setup script..." "cyan" w).trace ++ [Event.chdir dst]⟩)
    (by rw [tryExec_fs]; exact horig)
  simp only [runSetup, h1, h2]
  rfl

theorem chdir_not_dir (dir : Path) (w : Proc) (h : isDirectory dir w.fs = false) :
    ∃ e, chdir dir w = Except.error e := by
  unfold isDirectory at h
  unfold chdir
  cases hl : lookup dir w.fs with
  | none => exact ⟨_, rfl⟩
  | some x =>
      cases x with
      | file c => exact ⟨_, rfl⟩
      | dir t => rw [hl] at h; exact Bool.noConfusion h

theorem runSetup_restore_fails (env : Env) (tpl : Template) (name : String) (dst : Path)
    (w : Proc) (hdst : isDirectory dst w.fs = true)
    (horig : isDirectory w.cwd (env.run (setupCommand tpl name) dst w.fs).2 = false) :
    ∃ e w1, runSetup env tpl name dst w = Step.uncaught e w1 ∧ w1.cwd = dst := by
  have h1 := chdir_dir dst (log "  🔧 Running setup script..." "cyan" w) hdst
  obtain ⟨e, h2⟩ := chdir_not_dir (log "  🔧 Running setup script..." "cyan" w).cwd
    (tryExec env (setupCommand tpl name)
      ⟨(log "  🔧 Running setup script..." "cyan" w).fs, dst,
        (log "  🔧 Running setup script..." "cyan" w).trace ++ [Event.chdir dst]⟩)
    (by rw [tryExec_fs]; exact horig)
  refine ⟨e.code, _, ?_, tryExec_cwd env (setupCommand tpl name)
    ⟨(log "  🔧 Running setup script..." "cyan" w).fs, dst,
      (log "  🔧 Running setup script..." "cyan" w).trace ++ [Event.chdir dst]⟩⟩
  simp only [runSetup, h1, h2]

theorem setupDone_cwd (env : Env) (tpl : Template) (name : String) (dst : Path) (w : Proc) :
    (setupDone env tpl name dst w).cwd = w.cwd := rfl

theorem setupDone_actions (env : Env) (tpl : Template) (name : String) (dst : Path)
    (w : Proc) :
    actions (setupDone env tpl name dst w).trace =
      actions w.trace ++
        [Event.chdir dst, Event.exec (setupCommand tpl name) dst, Event.chdir w.cwd] := by
  unfold setupDone
  simp only [actions_append, tryExec_actions, actions_log]
  simp [actions, Event.isLog]

theorem setupDone_trace (env : Env) (tpl : Template) (name : String) (dst : Path) (w : Proc) :
    ∃ mid, (setupDone env tpl name dst w).trace = w.trace ++ mid := by
  unfold setupDone
  obtain ⟨mid, hmid⟩ := tryExec_trace env (setupCommand tpl name)
    ⟨(log "  🔧 Running setup script..." "cyan" w).fs, dst,
      (log "  🔧 Running setup script..." "cyan" w).trace ++ [Event.chdir dst]⟩
  refine ⟨[Event.log (colored ("  🔧 Running setup script...", "cyan")), Event.chdir dst] ++
    mid ++ [Event.chdir w.cwd], ?_⟩
  simp only [hmid]
  simp [log, colored]

theorem setupDone_warning (env : Env) (tpl : Template) (name : String) (dst : Path) (w : Proc)
    (h : (env.run (setupCommand tpl name) dst w.fs).1 ≠ ExecResult.success) :
    Event.log (colored setupWarning) ∈ (setupDone env tpl name dst w).trace := by
  unfold setupDone
  exact List.mem_append_left _ (tryExec_warning env (setupCommand tpl name) _ h)

theorem closing_cwd (t name : String) (dst : Path) (w : Proc) :
    (closing t name dst w).cwd = w.cwd := logAll_cwd _ w

theorem closing_actions (t name : String) (dst : Path) (w : Proc) :
    actions (closing t name dst w).trace = actions w.trace := actions_logAll _ w

theorem closing_trace (t name : String) (dst : Path) (w : Proc) :
    (closing t name dst w).trace =
      w.trace ++ (successLines t name w.cwd dst).map (fun l => Event.log (colored l)) :=
  logAll_trace _ w

theorem lookup_append_file (p q : Path) (fs : Tree) (c : List UInt8)
    (h : lookup p fs = some (Node.file c)) (hq : q ≠ []) : lookup (p ++ q) fs = none := by
  induction p generalizing fs with
  | nil => simp [lookup] at h
  | cons n p ih =>
      cases hf : fs.find n with
      | none => simp [lookup_cons_none _ _ _ hf] at h
      | some x =>
          cases x with
          | file c0 =>
              rw [List.cons_append, lookup_cons_file _ _ _ _ hf]
              have : p ++ q ≠ [] := by simp [hq]
              simp [this]
          | dir sub =>
              rw [lookup_cons_dir _ _ _ _ hf] at h
              rw [List.cons_append, lookup_cons_dir _ _ _ _ hf]
              exact ih sub h

theorem isDirectory_of_exists_below (p q : Path) (fs : Tree) (hq : q ≠ [])
    (h : existsSync (p ++ q) fs = true) : isDirectory p fs = true := by
  unfold isDirectory
  unfold existsSync at h
  cases hl : lookup p fs with
  | none => rw [lookup_append_none p q fs hl] at h; exact Bool.noConfusion h
  | some x =>
      cases x with
      | file c => rw [lookup_append_file p q fs c hl hq] at h; exact Bool.noConfusion h
      | dir t => rfl

theorem pathJoin_setupScript (t : String) (tpl : Template) (dst : Path)
    (hl : TEMPLATES.lookup t = some tpl) :
    ∃ a b, pathJoin dst tpl.setupScript = dst ++ [a, b] := by
  rcases templates_lookup_cases t tpl hl with ⟨-, rfl⟩ | ⟨-, rfl⟩ | ⟨-, rfl⟩
  · refine ⟨"scripts", "setup-project.js", ?_⟩
    have : segments "scripts/setup-project.js" = ["scripts", "setup-project.js"] := by decide
    simp [pathJoin, this, applySegment]
  · refine ⟨"scripts", "setup_project.py", ?_⟩
    have : segments "scripts/setup_project.py" = ["scripts", "setup_project.py"] := by decide
    simp [pathJoin, this, applySegment]
  · refine ⟨"scripts", "setup-project.js", ?_⟩
    have : segments "scripts/setup-project.js" = ["scripts", "setup-project.js"] := by decide
    simp [pathJoin, this, applySegment]

theorem isDirectory_dest (t : String) (tpl : Template) (dst : Path) (fs : Tree)
    (hl : TEMPLATES.lookup t = some tpl)
    (h : existsSync (pathJoin dst tpl.setupScript) fs = true) : isDirectory dst fs = true := by
  obtain ⟨a, b, hab⟩ := pathJoin_setupScript t tpl dst hl
  rw [hab] at h
  exact isDirectory_of_exists_below dst [a, b] fs (by simp) h

theorem afterCopy_with_script (env : Env) (t name : String) (tpl : Template) (dst : Path)
    (w : Proc) (hs : existsSync (pathJoin dst tpl.setupScript) w.fs = true)
    (hdst : isDirectory dst w.fs = true)
    (horig : isDirectory w.cwd (env.run (setupCommand tpl name) dst w.fs).2 = true) :
    afterCopy env t name tpl dst w =
      Step.ok () (closing t name dst
        (setupDone env tpl name dst (log (copiedLine dst).1 (copiedLine dst).2 w))) := by
  have h := runSetup_ok env tpl name dst (log (copiedLine dst).1 (copiedLine dst).2 w) hdst horig
  simp only [copiedLine] at h
  simp only [afterCopy, log_fs, hs, if_true, h, copiedLine]

theorem afterCopy_without_script (env : Env) (t name : String) (tpl : Template) (dst : Path)
    (w : Proc) (hs : existsSync (pathJoin dst tpl.setupScript) w.fs = false) :
    afterCopy env t name tpl dst w =
      Step.ok () (closing t name dst (log (copiedLine dst).1 (copiedLine dst).2 w)) := by
  simp only [afterCopy, log_fs, hs, Bool.false_eq_true, if_false, copiedLine]

theorem materialize_copy_done (env : Env) (fuel : Nat) (t name dest : String) (tpl : Template)
    (w : Proc) (fs1 : Tree)
    (hsrc : existsSync (pathJoin env.rootDir tpl.source) w.fs = true)
    (hdst : existsSync (pathResolve w.cwd dest name) w.fs = false)
    (hcopy : copyDir fuel (pathJoin env.rootDir tpl.source) (pathResolve w.cwd dest name) w.fs =
      some (CopyResult.done fs1)) :
    materialize env fuel t name dest tpl w =
      afterCopy env t name tpl (pathResolve w.cwd dest name)
        ((announceCopy tpl name (pathJoin env.rootDir tpl.source)
            (pathResolve w.cwd dest name) w).setFs fs1) := by
  simp only [materialize, hsrc, hdst, announceCopy_fs, hcopy]
  simp

theorem materialize_exitCode_zero (env : Env) (fuel : Nat) (t name dest : String)
    (tpl : Template) (w : Proc) (h : (materialize env fuel t name dest tpl w).exitCode = some 0) :
    ∃ fs1, copyDir fuel (pathJoin env.rootDir tpl.source) (pathResolve w.cwd dest name) w.fs =
      some (CopyResult.done fs1) := by
  unfold materialize at h
  simp only [announceCopy_fs] at h
  split at h
  · simp [Step.exitCode] at h
  · split at h
    · simp [Step.exitCode] at h
    · split at h
      · simp [Step.exitCode] at h
      · simp [Step.exitCode] at h
      · rename_i fs1 hc
        exact ⟨fs1, hc⟩

theorem main_failure (env : Env) (fuel : Nat) (t name : String) (rest : List String) (w : Proc)
    (ht : ¬ (t = "--help" ∨ t = "-h"))
    (h : matchesNamePattern name = false ∨ TEMPLATES.lookup t = none ∨
      ∃ tpl, TEMPLATES.lookup t = some tpl ∧
        (existsSync (pathJoin env.rootDir tpl.source) w.fs = false ∨
          existsSync (pathResolve w.cwd (destinationOf rest) name) w.fs = true)) :
    (main env fuel (t :: name :: rest) w).exitCode = some 1 ∧
      Quiet w (main env fuel (t :: name :: rest) w) := by
  cases hn : matchesNamePattern name with
  | false =>
      rw [main_bad_name env fuel t name rest w ht hn]
      exact ⟨rfl, quiet_exit_logAll 1 _ w⟩
  | true =>
      rw [main_good_name env fuel t name rest w ht hn]
      rcases h with h | h | ⟨tpl, hl, h⟩
      · rw [hn] at h
        exact Bool.noConfusion h
      · rw [getProperty_of_lookup_none t h]
        by_cases hp : t ∈ objectPrototypeKeys
        · simp only [hp, if_true]
          exact ⟨rfl, ⟨w, rfl, rfl, rfl, rfl⟩⟩
        · simp only [hp, if_false]
          exact ⟨rfl, quiet_exit_logAll 1 _ w⟩
      · rw [getProperty_of_lookup t tpl hl]
        simp only [materialize]
        cases hsrc : existsSync (pathJoin env.rootDir tpl.source) w.fs with
        | false => exact ⟨rfl, quiet_exit_log 1 _ _ w⟩
        | true =>
            rcases h with h | h
            · rw [hsrc] at h
              exact Bool.noConfusion h
            · simp only [h, Bool.not_true, Bool.false_eq_true, if_false, if_true]
              exact ⟨rfl, quiet_exit_log 1 _ _ w⟩

theorem mem_of_mem_actions (e : Event) (trace : List Event) (h : e ∈ actions trace) :
    e ∈ trace :=
  (List.mem_filter.mp h).1

theorem printed_append (a b : List Event) : printed (a ++ b) = printed a ++ printed b := by
  simp [printed, List.filterMap_append]

theorem printed_logs (lines : List (String × String)) :
    printed (lines.map (fun l => Event.log (colored l))) = lines.map colored := by
  induction lines with
  | nil => rfl
  | cons l lines ih => simpa [printed] using ih

theorem printed_logAll (lines : List (String × String)) (w : Proc) :
    printed (logAll lines w).trace = printed w.trace ++ lines.map colored := by
  rw [logAll_trace, printed_append, printed_logs]

theorem helpLines_colored : helpLines.map colored = usageText := by decide

theorem success_line_mem (t name : String) (cwd dst : Path) :
    Event.log ("\x1b[32m" ++ ("✅ Project \"" ++ name ++ "\" created successfully!") ++ "\x1b[0m") ∈
      (successLines t name cwd dst).map (fun l => Event.log (colored l)) := by
  have h : ("✅ Project \"" ++ name ++ "\" created successfully!", "green") ∈
      successLines t name cwd dst := by
    simp [successLines]
  exact List.mem_map_of_mem (fun l => Event.log (colored l)) h

theorem next_steps_line_mem (t name : String) (cwd dst : Path) :
    Event.log "\x1b[33m\n📋 Next steps:\x1b[0m" ∈
      (successLines t name cwd dst).map (fun l => Event.log (colored l)) := by
  have h : ("\n📋 Next steps:", "yellow") ∈ successLines t name cwd dst := by
    simp [successLines]
  exact List.mem_map_of_mem (fun l => Event.log (colored l)) h

theorem setup_warning_colored :
    colored setupWarning =
      "\x1b[33m⚠️ Setup script encountered issues (may need manual configuration)\x1b[0m" := by
  decide

theorem log_cwd_eq (m c : String) (w : Proc) : (log m c w).cwd = w.cwd := rfl

theorem main_copy_done (env : Env) (fuel : Nat) (t name : String) (rest : List String)
    (w : Proc) (tpl : Template) (fs1 : Tree)
    (hn : matchesNamePattern name = true) (hl : TEMPLATES.lookup t = some tpl)
    (hsrc : existsSync (pathJoin env.rootDir tpl.source) w.fs = true)
    (hdst : existsSync (pathResolve w.cwd (destinationOf rest) name) w.fs = false)
    (hcopy : copyDir fuel (pathJoin env.rootDir tpl.source)
      (pathResolve w.cwd (destinationOf rest) name) w.fs = some (CopyResult.done fs1)) :
    main env fuel (t :: name :: rest) w =
      afterCopy env t name tpl (pathResolve w.cwd (destinationOf rest) name)
        ((announceCopy tpl name (pathJoin env.rootDir tpl.source)
            (pathResolve w.cwd (destinationOf rest) name) w).setFs fs1) := by
  rw [main_good_name env fuel t name rest w (templates_lookup_not_help t tpl hl) hn,
    getProperty_of_lookup t tpl hl]
  exact materialize_copy_done env fuel t name _ tpl w fs1 hsrc hdst hcopy

/-! ## The setup command -/

theorem splitOn_no_sep (sep : Char) (l : List Char) (h : sep ∉ l) : splitOn sep l = [l] := by
  induction l with
  | nil => rfl
  | cons c cs ih =>
      have hc : c ≠ sep := fun e => h (by simp [e])
      have hcs : sep ∉ cs := fun e => h (by simp [e])
      simp [splitOn, hc, ih hcs]

theorem splitOn_append_sep (sep : Char) (a b : List Char) (h : sep ∉ a) :
    splitOn sep (a ++ sep :: b) = a :: splitOn sep b := by
  induction a with
  | nil => simp [splitOn]
  | cons c cs ih =>
      have hc : c ≠ sep := fun e => h (by simp [e])
      have hcs : sep ∉ cs := fun e => h (by simp [e])
      simp [splitOn, hc, ih hcs]

theorem name_chars (name : String) (h : matchesNamePattern name = true) :
    ∀ d ∈ name.toList, (d.isLower || d.isDigit || d == '-') = true := by
  unfold matchesNamePattern at h
  cases hl : name.toList with
  | nil => rw [hl] at h; exact Bool.noConfusion h
  | cons c cs =>
      rw [hl] at h
      simp only [Bool.and_eq_true, List.all_eq_true] at h
      intro d hd
      rcases List.mem_cons.mp hd with rfl | hd
      · simp [h.1]
      · exact h.2 d hd

theorem name_char_not_special (d : Char) (h : (d.isLower || d.isDigit || d == '-') = true) :
    d ∉ shellSpecial := by
  intro hmem
  have hall : shellSpecial.all (fun s => !(s.isLower || s.isDigit || s == '-')) = true := by
    decide
  have := (List.all_eq_true.mp hall) d hmem
  rw [h] at this
  exact Bool.noConfusion this

theorem command_tokens (interp script name : String) (hi : ' ' ∉ interp.toList)
    (hs : ' ' ∉ script.toList) (hn : ' ' ∉ name.toList) :
    splitOn ' ' (interp ++ " " ++ script ++ " " ++ name).toList =
      [interp.toList, script.toList, name.toList] := by
  have e : (interp ++ " " ++ script ++ " " ++ name).toList =
      interp.toList ++ ' ' :: (script.toList ++ ' ' :: name.toList) := by
    simp [String.toList, String.data_append]
  rw [e, splitOn_append_sep ' ' _ _ hi, splitOn_append_sep ' ' _ _ hs, splitOn_no_sep ' ' _ hn]

/-- C1: `validateProjectName` ends the process with exit code 1 exactly when the
name does not match the naming rule (a lowercase ASCII letter followed by
lowercase ASCII letters, digits or hyphens, over the whole string); a matching
name is returned unchanged; `My_App`, `1abc` and the empty string are rejected. -/
theorem validateProjectName_rejects_iff (s : String) (w : Proc) :
    ((∃ w1, validateProjectName s w = Step.exit 1 w1) ↔ matchesNamePattern s = false) ∧
    (matchesNamePattern s = true → validateProjectName s w = Step.ok s w) ∧
    (∀ x ∈ ["My_App", "1abc", ""], ∃ w1, validateProjectName x w = Step.exit 1 w1) := by
  have key : ∀ x : String, regexTest validPattern x = matchesNamePattern x :=
    regexTest_validPattern
  refine ⟨?_, ?_, ?_⟩
  · unfold validateProjectName
    rw [key]
    cases matchesNamePattern s <;> simp
  · intro h
    unfold validateProjectName
    rw [key, h]
    simp
  · intro x hx
    have hx2 : matchesNamePattern x = false := by
      simp only [List.mem_cons, List.mem_singleton, List.not_mem_nil, or_false] at hx
      rcases hx with rfl | rfl | rfl <;> decide
    unfold validateProjectName
    rw [key, hx2]
    exact ⟨_, rfl⟩

/-- C3, as stated, fails for a destination that does not exist beforehand:
when the destination lies inside the source (`template/app` in `template`) the
recursion never returns, whatever the fuel; when an ancestor of the destination
is a regular file (`out/app` below the file `out`) the first `mkdirSync` throws
`ENOTDIR`.  In neither case does the call complete. -/
theorem copyDir_fresh_destination_counterexample :
    (lookup ["template"] fsInside = some (Node.dir Tree.nil) ∧
      existsSync ["template", "app"] fsInside = false ∧
      (∀ fuel, copyDir fuel ["template"] ["template", "app"] fsInside = none) ∧
      ¬ ∃ fuel fs2, copyDir fuel ["template"] ["template", "app"] fsInside =
          some (CopyResult.done fs2)) ∧
    (lookup ["template"] fsBlocked = some (Node.dir Tree.nil) ∧
      existsSync ["out", "app"] fsBlocked = false ∧
      (∀ fuel, copyDir (fuel + 1) ["template"] ["out", "app"] fsBlocked =
        some (CopyResult.threw IOError.ENOTDIR fsBlocked)) ∧
      ¬ ∃ fuel fs2, copyDir fuel ["template"] ["out", "app"] fsBlocked =
          some (CopyResult.done fs2)) := by
  have hin : ∀ fuel, copyDir fuel ["template"] ["template", "app"] fsInside = none := by
    intro fuel
    exact copyDir_inside_diverges "template" "app" (by decide) fuel 0
  have hbl : ∀ fuel, copyDir (fuel + 1) ["template"] ["out", "app"] fsBlocked =
      some (CopyResult.threw IOError.ENOTDIR fsBlocked) := by
    intro fuel
    rfl
  refine ⟨⟨by decide, by decide, hin, ?_⟩, ⟨by decide, by decide, hbl, ?_⟩⟩
  · rintro ⟨fuel, fs2, h⟩
    rw [hin fuel] at h
    exact Option.noConfusion h
  · rintro ⟨fuel, fs2, h⟩
    cases fuel with
    | zero => exact Option.noConfusion h
    | succ f =>
        rw [hbl f] at h
        simp at h

/-- C3, as amended: for a source directory with tree `T` (entry names distinct
in every directory) and a destination that does not exist beforehand, does not
lie inside the source and has no regular file among its ancestors, `copyDir`
returns (with any fuel above the depth of `T`) and the tree at the destination
is `T` with every excluded entry removed:
at every relative path without an excluded component the destination holds what
the source holds there (files byte for byte, directories pruned), and nothing
at any other path.  The result depends on `T` only: a second copy of the same
tree to another destination, in any file system, yields the same tree. -/
theorem copyDir_copies_pruned_tree (T fs : Tree) (S D : Path) (fuel : Nat)
    (hS : lookup S fs = some (Node.dir T)) (hT : T.Distinct)
    (hD : existsSync D fs = false) (hSD : ¬ S <+: D) (hanc : blocked D fs = false)
    (hfuel : T.depth < fuel) :
    ∃ fs2, copyDir fuel S D fs = some (CopyResult.done fs2) ∧
      lookup D fs2 = some (Node.dir T.prune) ∧
      (∀ r, lookup (D ++ r) fs2 =
        if hasExcluded r then none else (lookup (S ++ r) fs).map Node.prune) ∧
      (∀ (fs' : Tree) (S' D' : Path) (fuel' : Nat),
        lookup S' fs' = some (Node.dir T) → existsSync D' fs' = false → ¬ S' <+: D' →
        blocked D' fs' = false → T.depth < fuel' →
        ∃ fs3, copyDir fuel' S' D' fs' = some (CopyResult.done fs3) ∧
          lookup D' fs3 = lookup D fs2) := by
  have hnone : ∀ (P : Path) (g : Tree), existsSync P g = false → lookup P g = none := by
    intro P g h
    simpa [existsSync] using h
  obtain ⟨fs2, hrun, hres, -⟩ :=
    copyDir_fresh T fs S D fuel hS hT (hnone D fs hD) hSD (not_blocked D fs hanc) hfuel
  refine ⟨fs2, hrun, hres, ?_, ?_⟩
  · intro r
    rw [lookup_append D r fs2 _ hres, lookup_prune r T, lookup_append S r fs T hS]
  · intro fs' S' D' fuel' hS' hD' hSD' hanc' hfuel'
    obtain ⟨fs3, hrun3, hres3, -⟩ :=
      copyDir_fresh T fs' S' D' fuel' hS' hT (hnone D' fs' hD') hSD'
        (not_blocked D' fs' hanc') hfuel'
    exact ⟨fs3, hrun3, by rw [hres3, hres]⟩

/-- C3, on the small installation: the frontend template copied to
`/home/out/my-app`. -/
theorem copyDir_copies_pruned_tree_witness :
    (lookup ["opt", "Frontend-Template", "Frontend-Template"] demoFs =
        some (Node.dir demoTemplate) ∧
      demoTemplate.Distinct ∧
      existsSync ["home", "out", "my-app"] demoFs = false ∧
      ¬ ["opt", "Frontend-Template", "Frontend-Template"] <+: ["home", "out", "my-app"] ∧
      blocked ["home", "out", "my-app"] demoFs = false ∧ demoTemplate.depth < 4) ∧
    ∃ fs2, copyDir 4 ["opt", "Frontend-Template", "Frontend-Template"]
        ["home", "out", "my-app"] demoFs = some (CopyResult.done fs2) ∧
      lookup ["home", "out", "my-app"] fs2 = some (Node.dir demoTemplate.prune) :=
  have h1 : lookup ["opt", "Frontend-Template", "Frontend-Template"] demoFs =
      some (Node.dir demoTemplate) := by decide
  have h2 : demoTemplate.Distinct := by
    simp [demoTemplate, Tree.Distinct, Tree.names]
  have h3 : existsSync ["home", "out", "my-app"] demoFs = false := by decide
  have h4 : ¬ ["opt", "Frontend-Template", "Frontend-Template"] <+:
      ["home", "out", "my-app"] := by decide
  have h5 : blocked ["home", "out", "my-app"] demoFs = false := by decide
  have h6 : demoTemplate.depth < 4 := by decide
  ⟨⟨h1, h2, h3, h4, h5, h6⟩,
    (copyDir_copies_pruned_tree demoTemplate demoFs _ _ 4 h1 h2 h3 h4 h5 h6).imp
      (fun _ h => ⟨h.1, h.2.1⟩)⟩

/-- C4: when the destination does not exist beforehand, whatever way a call
`copyDir(src, dest)` ends (normally or with an exception), no path below the
destination with a component named `node_modules`, `__pycache__`, `venv`,
`.git`, `dist` or `build` exists afterwards; and when moreover the destination
is not inside the source and not below a regular file, the call does return. -/
theorem copyDir_excluded_never_in_destination (fs : Tree) (S D : Path)
    (hD : existsSync D fs = false) :
    (∀ fuel r, copyDir fuel S D fs = some r →
      ∀ rel, hasExcluded rel = true → existsSync (D ++ rel) r.fs = false) ∧
    (∀ T fuel, lookup S fs = some (Node.dir T) → T.Distinct → ¬ S <+: D →
      blocked D fs = false → T.depth < fuel →
      ∃ fs2, copyDir fuel S D fs = some (CopyResult.done fs2) ∧
        ∀ rel, hasExcluded rel = true → existsSync (D ++ rel) fs2 = false) := by
  have hnone : lookup D fs = none := by simpa [existsSync] using hD
  have safe : ∀ fuel r, copyDir fuel S D fs = some r →
      ∀ rel, hasExcluded rel = true → existsSync (D ++ rel) r.fs = false := by
    intro fuel r h rel hrel
    simp [existsSync, copyDir_no_excluded fuel S D fs r hnone h rel hrel]
  refine ⟨safe, ?_⟩
  intro T fuel hS hT hSD hanc hfuel
  obtain ⟨fs2, hrun, -, -⟩ :=
    copyDir_fresh T fs S D fuel hS hT hnone hSD (not_blocked D fs hanc) hfuel
  exact ⟨fs2, hrun, safe fuel _ hrun⟩

/-- C4, on the small installation: after the copy to `/home/out/my-app` the file
`src/index.ts` is there and `node_modules` is not. -/
theorem copyDir_excluded_never_in_destination_witness :
    existsSync ["home", "out", "my-app"] demoFs = false ∧
    (copyDir 4 ["opt", "Frontend-Template", "Frontend-Template"] ["home", "out", "my-app"]
        demoFs).map (fun r => existsSync ["home", "out", "my-app", "src", "index.ts"] r.fs) =
      some true ∧
    (copyDir 4 ["opt", "Frontend-Template", "Frontend-Template"] ["home", "out", "my-app"]
        demoFs).map (fun r => existsSync (["home", "out", "my-app"] ++ ["node_modules"]) r.fs) =
      some false := by
  refine ⟨by decide, by decide, ?_⟩
  cases h : copyDir 4 ["opt", "Frontend-Template", "Frontend-Template"]
      ["home", "out", "my-app"] demoFs with
  | none => exact absurd h (by decide)
  | some r =>
      have := (copyDir_excluded_never_in_destination demoFs
        ["opt", "Frontend-Template", "Frontend-Template"] ["home", "out", "my-app"]
        (by decide)).1 4 r h ["node_modules"] (by decide)
      exact congrArg some this

/-- C10, as stated, fails in its last clause when the source lies inside a
destination that already exists: with source `/a/b` and destination `/a` (not
inside the source), the source subdirectory `c` is empty before the call; the
call creates `c/d` below the destination, which is inside the source, and the
copy of `c` at `/a/c` then holds `d`: a directory the call created was
enumerated as a source entry.  The call itself returns. -/
theorem copyDir_source_inside_destination_counterexample :
    ¬ (["a", "b"] : Path) <+: ["a"] ∧
    readdirSync ["a", "b", "c"] fsNested = Except.ok [] ∧
    existsSync ["a", "b", "c", "d"] fsNested = false ∧
    (copyDir 6 ["a", "b"] ["a"] fsNested).map
        (fun r => (existsSync ["a", "b", "c", "d"] r.fs, existsSync ["a", "c", "d"] r.fs)) =
      some (true, true) := by
  refine ⟨by decide, rfl, by decide, by decide⟩

/-- C10, as amended: when the destination is not located inside the source
directory, `copyDir` terminates: every fuel above the depth of the file system
gives the same result.  The loop recurses only into the directory entries of
the source that are not excluded, and what a source entry holds is strictly
less deep than the listing it is an entry of.  When the source is not located
inside the destination either, the tree below the source is the same after the
call as before, so that no directory the call creates is enumerated as a source
entry. -/
theorem copyDir_terminates (fs : Tree) (S D : Path) (h : S <+: D → D = S) :
    (∃ r, (∀ fuel, fs.depth < fuel → copyDir fuel S D fs = some r) ∧
      (¬ D <+: S → ∀ rel, lookup (S ++ rel) r.fs = lookup (S ++ rel) fs)) ∧
    (∀ (self self1 : Path → Path → Tree → Option CopyResult) (es : List Dirent) (g : Tree),
      (∀ e ∈ es, e.isDirectory = true → e.name ∉ excludedNames →
        ∀ g1, self (S ++ [e.name]) (D ++ [e.name]) g1 =
          self1 (S ++ [e.name]) (D ++ [e.name]) g1) →
      copyEntries self S D es g = copyEntries self1 S D es g) ∧
    (∀ (g T : Tree) (n : String) (x : Node), lookup S g = some (Node.dir T) →
      lookup (S ++ [n]) g = some x → x.depth < T.depth) := by
  refine ⟨?_, fun self self1 es g hs => copyEntries_congr self self1 S D es hs g, ?_⟩
  · obtain ⟨r, hr, hfr⟩ := copyDir_returns fs S D (fs.depth + 1) h (Nat.lt_succ_self _)
    refine ⟨r, ?_, ?_⟩
    · intro fuel hfuel
      exact copyDir_mono (fs.depth + 1) fuel hfuel S D fs r hr
    · intro hDS rel
      have hdiv : Diverge S D := by
        refine ⟨fun hp => hDS ?_, hDS⟩
        rw [h hp]
      exact hfr hdiv _ (diverge_child_left_gen S D rel hdiv)
  · intro g T n x hT hx
    rw [lookup_child S n g T hT] at hx
    exact Tree.depth_of_find n T x hx

/-- C10, on the small installation: the copy of the frontend template to
`/home/out/my-app` returns with fuel 7. -/
theorem copyDir_terminates_witness :
    ((["opt", "Frontend-Template", "Frontend-Template"] : Path) <+: ["home", "out", "my-app"] →
      (["home", "out", "my-app"] : Path) = ["opt", "Frontend-Template", "Frontend-Template"]) ∧
    ∃ r, copyDir 7 ["opt", "Frontend-Template", "Frontend-Template"] ["home", "out", "my-app"]
      demoFs = some r :=
  have h : (["opt", "Frontend-Template", "Frontend-Template"] : Path) <+:
      ["home", "out", "my-app"] →
      (["home", "out", "my-app"] : Path) = ["opt", "Frontend-Template", "Frontend-Template"] := by
    decide
  ⟨h, (copyDir_terminates demoFs _ _ h).1.imp (fun _ hr => hr.1 7 (by decide))⟩

/-- C2, evaluated at the failing input: for the template type `constructor`
(with the valid name `my-app`) the lookup `TEMPLATES[templateType]` yields the
property inherited from `Object.prototype`, which is truthy; `main` skips the
unknown-template branch, prints nothing and ends in the `TypeError` of
`path.join`, whereas a key such as `nonsense` takes the branch, lists the
templates and exits with code 1.  In general, with a valid name, every key
inherited from `Object.prototype` ends in the `TypeError`, and every other key
outside the registry takes the unknown-template branch. -/
theorem main_inherited_key_skips_unknown_branch (env : Env) (fuel : Nat) (w : Proc) :
    getProperty TEMPLATES "constructor" = JSValue.inherited "constructor" ∧
    main env fuel ["constructor", "my-app"] w = Step.uncaught pathTypeError w ∧
    main env fuel ["nonsense", "my-app"] w =
      Step.exit 1 (logAll (unknownTemplateLines "nonsense") w) ∧
    (∀ t name rest, t ∈ objectPrototypeKeys → matchesNamePattern name = true →
      main env fuel (t :: name :: rest) w = Step.uncaught pathTypeError w) ∧
    (∀ t name rest, ¬ (t = "--help" ∨ t = "-h") → matchesNamePattern name = true →
      TEMPLATES.lookup t = none → t ∉ objectPrototypeKeys →
      main env fuel (t :: name :: rest) w = Step.exit 1 (logAll (unknownTemplateLines t) w)) := by
  have hproto : ∀ t, t ∈ objectPrototypeKeys →
      ¬ (t = "--help" ∨ t = "-h") ∧ getProperty TEMPLATES t = JSValue.inherited t := by
    intro t ht
    simp only [objectPrototypeKeys, List.mem_cons, List.mem_singleton, List.not_mem_nil,
      or_false] at ht
    rcases ht with rfl | rfl | rfl | rfl | rfl | rfl | rfl | rfl | rfl | rfl | rfl | rfl <;>
      exact ⟨by decide, by decide⟩
  have hinh : ∀ t name rest, t ∈ objectPrototypeKeys → matchesNamePattern name = true →
      main env fuel (t :: name :: rest) w = Step.uncaught pathTypeError w := by
    intro t name rest ht hn
    rw [main_good_name env fuel t name rest w (hproto t ht).1 hn, (hproto t ht).2]
  have hunk : ∀ t name rest, ¬ (t = "--help" ∨ t = "-h") → matchesNamePattern name = true →
      TEMPLATES.lookup t = none → t ∉ objectPrototypeKeys →
      main env fuel (t :: name :: rest) w =
        Step.exit 1 (logAll (unknownTemplateLines t) w) := by
    intro t name rest ht hn hl hp
    rw [main_good_name env fuel t name rest w ht hn, getProperty_of_lookup_none t hl, if_neg hp]
  exact ⟨by decide, hinh _ _ _ (by decide) (by decide),
    hunk _ _ _ (by decide) (by decide) (by decide) (by decide), hinh, hunk⟩

/-- C5: when `main` is called with at least two arguments, the first not a help
flag, and the project name is invalid, or the template key is not in the
registry, or the template source does not exist, or the destination already
exists, the process ends with exit code 1 having done nothing but print: the
files and the working directory are the same, `copyDir` was not called, no
directory was changed and no command was run. -/
theorem main_failure_exits_one_without_mutation (env : Env) (fuel : Nat) (t name : String)
    (rest : List String) (w : Proc) (ht : ¬ (t = "--help" ∨ t = "-h"))
    (h : matchesNamePattern name = false ∨ TEMPLATES.lookup t = none ∨
      ∃ tpl, TEMPLATES.lookup t = some tpl ∧
        (existsSync (pathJoin env.rootDir tpl.source) w.fs = false ∨
          existsSync (pathResolve w.cwd (destinationOf rest) name) w.fs = true)) :
    (main env fuel (t :: name :: rest) w).exitCode = some 1 ∧
    ∃ w1, (main env fuel (t :: name :: rest) w).proc = some w1 ∧ w1.fs = w.fs ∧
      w1.cwd = w.cwd ∧ actions w1.trace = actions w.trace :=
  main_failure env fuel t name rest w ht h

/-- C5, on the small installation: template `backend-python` with the name
`Bad_Name` exits with code 1 and creates nothing. -/
theorem main_failure_exits_one_without_mutation_witness :
    (¬ ("backend-python" = "--help" ∨ "backend-python" = "-h") ∧
      matchesNamePattern "Bad_Name" = false) ∧
    (main demoEnv 7 ["backend-python", "Bad_Name"] demoProc).exitCode = some 1 ∧
    ∃ w1, (main demoEnv 7 ["backend-python", "Bad_Name"] demoProc).proc = some w1 ∧
      w1.fs = demoFs ∧ w1.cwd = ["home"] ∧ actions w1.trace = [] :=
  ⟨⟨by decide, by decide⟩,
    main_failure_exits_one_without_mutation demoEnv 7 "backend-python" "Bad_Name" [] demoProc
      (by decide) (Or.inl (by decide))⟩

/-- C9: when the first argument is `--help` or `-h`, whatever follows, `main`
prints the usage text (its fourteen lines, after what was on the console
before) and exits with code 0, with nothing validated and nothing done but
printing; likewise for an empty argument list.  The exit code is 0 only then or
when the copy completed, and it is 1 for a missing argument and for every
validation, lookup or pre-existence failure. -/
theorem main_exit_codes (env : Env) (fuel : Nat) (w : Proc) :
    (∀ a rest, a = "--help" ∨ a = "-h" →
      main env fuel (a :: rest) w = Step.exit 0 (logAll helpLines w) ∧
        Quiet w (main env fuel (a :: rest) w) ∧
        (main env fuel (a :: rest) w).proc.map (fun w1 => printed w1.trace) =
          some (printed w.trace ++ usageText)) ∧
    (main env fuel [] w = Step.exit 0 (logAll helpLines w) ∧
      (main env fuel [] w).proc.map (fun w1 => printed w1.trace) =
        some (printed w.trace ++ usageText)) ∧
    (∀ args, (main env fuel args w).exitCode = some 0 →
      args = [] ∨ (∃ a rest, args = a :: rest ∧ (a = "--help" ∨ a = "-h")) ∨
      ∃ t name rest tpl fs1, args = t :: name :: rest ∧ matchesNamePattern name = true ∧
        TEMPLATES.lookup t = some tpl ∧
        copyDir fuel (pathJoin env.rootDir tpl.source)
          (pathResolve w.cwd (destinationOf rest) name) w.fs = some (CopyResult.done fs1)) ∧
    (∀ t, ¬ (t = "--help" ∨ t = "-h") → (main env fuel [t] w).exitCode = some 1) ∧
    (∀ t name rest, ¬ (t = "--help" ∨ t = "-h") →
      (matchesNamePattern name = false ∨ TEMPLATES.lookup t = none ∨
        ∃ tpl, TEMPLATES.lookup t = some tpl ∧
          (existsSync (pathJoin env.rootDir tpl.source) w.fs = false ∨
            existsSync (pathResolve w.cwd (destinationOf rest) name) w.fs = true)) →
      (main env fuel (t :: name :: rest) w).exitCode = some 1) := by
  have hprint : (Step.exit 0 (logAll helpLines w) : Step Unit).proc.map
      (fun w1 => printed w1.trace) = some (printed w.trace ++ usageText) := by
    simp only [Step.proc, Option.map, printed_logAll, helpLines_colored]
  refine ⟨?_, ⟨rfl, hprint⟩, ?_, ?_, ?_⟩
  · intro a rest h
    rw [main_help env fuel a rest w h]
    exact ⟨rfl, quiet_exit_logAll 0 helpLines w, hprint⟩
  · intro args h
    cases args with
    | nil => exact Or.inl rfl
    | cons t rest =>
        by_cases ht : t = "--help" ∨ t = "-h"
        · exact Or.inr (Or.inl ⟨t, rest, rfl, ht⟩)
        · right; right
          cases rest with
          | nil => simp [main, ht, Step.exitCode] at h
          | cons name rest =>
              cases hn : matchesNamePattern name with
              | false =>
                  rw [main_bad_name env fuel t name rest w ht hn] at h
                  simp [Step.exitCode] at h
              | true =>
                  rw [main_good_name env fuel t name rest w ht hn] at h
                  cases hg : getProperty TEMPLATES t with
                  | undefined => rw [hg] at h; simp [Step.exitCode] at h
                  | inherited k => rw [hg] at h; simp [Step.exitCode] at h
                  | template tpl =>
                      rw [hg] at h
                      obtain ⟨fs1, hc⟩ := materialize_exitCode_zero env fuel t name _ tpl w h
                      exact ⟨t, name, rest, tpl, fs1, rfl, hn, getProperty_template t tpl hg, hc⟩
  · intro t ht
    simp [main, ht, Step.exitCode]
  · intro t name rest ht h
    exact (main_failure env fuel t name rest w ht h).1

/-- C6, as stated, fails for a setup script that ends with status 0 after
removing the directory the process was started in: the restoring
`process.chdir(originalDir)` stands after the `try` / `catch`, its exception is
not caught, and `main` ends with exit code 1 without the success message,
whereas with a script that does nothing it ends with exit code 0.  Here the
frontend template is copied from `/opt` to `/srv/my-app`, the process was
started in `/home`, and the script removes `/home`. -/
theorem setup_script_removing_start_directory_counterexample :
    (main ⟨["opt"], scrubbingRun⟩ 7 ["frontend", "my-app", "/srv"] demoProc).proc.map
        (fun w1 => decide
          (Event.exec "node scripts/setup-project.js my-app" ["srv", "my-app"] ∈ w1.trace)) =
      some true ∧
    (main ⟨["opt"], scrubbingRun⟩ 7 ["frontend", "my-app", "/srv"] demoProc).exitCode = some 1 ∧
    (main ⟨["opt"], scrubbingRun⟩ 7 ["frontend", "my-app", "/srv"] demoProc).proc.map
        (fun w1 => decide
          (Event.log "\x1b[32m✅ Project \"my-app\" created successfully!\x1b[0m" ∈ w1.trace)) =
      some false ∧
    (main ⟨["opt"], quietRun⟩ 7 ["frontend", "my-app", "/srv"] demoProc).exitCode = some 0 := by
  refine ⟨by decide, by decide, by decide, by decide⟩

/-- C6, as amended: when `main` reaches the setup step (valid name, known
template, source present, destination absent, copy completed, setup script
present in the copy) and the directory the process was started in is still a
directory once the script has ended, then whatever the script does (success,
non-zero status or failure to start) `main` returns normally: the command was
run, a failure is reported by the warning line, the success message and the
next steps are printed last, and the exit code is 0, the same for every such
script. -/
theorem setup_outcome_does_not_change_result (rootDir : Path)
    (run : String → Path → Tree → ExecResult × Tree) (fuel : Nat) (t name : String)
    (rest : List String) (w : Proc) (tpl : Template) (fs1 : Tree)
    (hn : matchesNamePattern name = true) (hl : TEMPLATES.lookup t = some tpl)
    (hsrc : existsSync (pathJoin rootDir tpl.source) w.fs = true)
    (hdst : existsSync (pathResolve w.cwd (destinationOf rest) name) w.fs = false)
    (hcopy : copyDir fuel (pathJoin rootDir tpl.source)
      (pathResolve w.cwd (destinationOf rest) name) w.fs = some (CopyResult.done fs1))
    (hscript : existsSync
      (pathJoin (pathResolve w.cwd (destinationOf rest) name) tpl.setupScript) fs1 = true)
    (horig : isDirectory w.cwd
      (run (setupCommand tpl name) (pathResolve w.cwd (destinationOf rest) name) fs1).2 = true) :
    ∃ w1, main ⟨rootDir, run⟩ fuel (t :: name :: rest) w = Step.ok () w1 ∧
      (main ⟨rootDir, run⟩ fuel (t :: name :: rest) w).exitCode = some 0 ∧
      Event.exec (setupCommand tpl name) (pathResolve w.cwd (destinationOf rest) name) ∈
        w1.trace ∧
      ((run (setupCommand tpl name) (pathResolve w.cwd (destinationOf rest) name) fs1).1 ≠
          ExecResult.success →
        Event.log
          "\x1b[33m⚠️ Setup script encountered issues (may need manual configuration)\x1b[0m" ∈
          w1.trace) ∧
      Event.log ("\x1b[32m" ++ ("✅ Project \"" ++ name ++ "\" created successfully!") ++
        "\x1b[0m") ∈ w1.trace ∧
      Event.log "\x1b[33m\n📋 Next steps:\x1b[0m" ∈ w1.trace ∧
      (∃ pre, w1.trace = pre ++
        (successLines t name w.cwd (pathResolve w.cwd (destinationOf rest) name)).map
          (fun l => Event.log (colored l))) ∧
      ∀ run2, isDirectory w.cwd
          (run2 (setupCommand tpl name) (pathResolve w.cwd (destinationOf rest) name) fs1).2 =
            true →
        (main ⟨rootDir, run2⟩ fuel (t :: name :: rest) w).exitCode = some 0 := by
  have hdir : isDirectory (pathResolve w.cwd (destinationOf rest) name) fs1 = true :=
    isDirectory_dest t tpl _ fs1 hl hscript
  have hmain : ∀ r : String → Path → Tree → ExecResult × Tree,
      isDirectory w.cwd
        (r (setupCommand tpl name) (pathResolve w.cwd (destinationOf rest) name) fs1).2 = true →
      main ⟨rootDir, r⟩ fuel (t :: name :: rest) w =
        Step.ok () (closing t name (pathResolve w.cwd (destinationOf rest) name)
          (setupDone ⟨rootDir, r⟩ tpl name (pathResolve w.cwd (destinationOf rest) name)
            (log (copiedLine (pathResolve w.cwd (destinationOf rest) name)).1
              (copiedLine (pathResolve w.cwd (destinationOf rest) name)).2
              ((announceCopy tpl name (pathJoin rootDir tpl.source)
                (pathResolve w.cwd (destinationOf rest) name) w).setFs fs1)))) := by
    intro r hr
    rw [main_copy_done ⟨rootDir, r⟩ fuel t name rest w tpl fs1 hn hl hsrc hdst hcopy]
    exact afterCopy_with_script ⟨rootDir, r⟩ t name tpl _ _ hscript hdir hr
  have hcwd : (setupDone ⟨rootDir, run⟩ tpl name (pathResolve w.cwd (destinationOf rest) name)
      (log (copiedLine (pathResolve w.cwd (destinationOf rest) name)).1
        (copiedLine (pathResolve w.cwd (destinationOf rest) name)).2
        ((announceCopy tpl name (pathJoin rootDir tpl.source)
          (pathResolve w.cwd (destinationOf rest) name) w).setFs fs1))).cwd = w.cwd := by
    rw [setupDone_cwd]
    exact announceCopy_cwd tpl name (pathJoin rootDir tpl.source)
      (pathResolve w.cwd (destinationOf rest) name) w
  refine ⟨_, hmain run horig, by rw [hmain run horig]; rfl, ?_, ?_, ?_, ?_, ?_, ?_⟩
  · rw [closing_trace]
    apply List.mem_append_left
    apply mem_of_mem_actions
    rw [setupDone_actions]
    simp
  · intro hfail
    rw [closing_trace, ← setup_warning_colored]
    exact List.mem_append_left _ (setupDone_warning ⟨rootDir, run⟩ tpl name _ _ hfail)
  · rw [closing_trace, hcwd]
    exact List.mem_append_right _ (success_line_mem t name w.cwd _)
  · rw [closing_trace, hcwd]
    exact List.mem_append_right _ (next_steps_line_mem t name w.cwd _)
  · rw [closing_trace, hcwd]
    exact ⟨_, rfl⟩
  · intro run2 h2
    rw [hmain run2 h2]
    rfl

/-- C6, on the small installation, with a setup script that fails with status 2. -/
theorem setup_outcome_does_not_change_result_witness :
    (matchesNamePattern "my-app" = true ∧
      existsSync (pathJoin ["opt"] "Frontend-Template/Frontend-Template") demoFs = true ∧
      existsSync (pathResolve ["home"] "./out" "my-app") demoFs = false ∧
      existsSync (pathJoin (pathResolve ["home"] "./out" "my-app") "scripts/setup-project.js")
        demoCopied = true ∧
      isDirectory ["home"] demoCopied = true) ∧
    (main demoEnv 7 ["frontend", "my-app", "./out"] demoProc).exitCode = some 0 :=
  ⟨⟨by decide, by decide, by decide, by decide, by decide⟩,
    (setup_outcome_does_not_change_result ["opt"] failingRun 7 "frontend" "my-app" ["./out"]
      demoProc ⟨"Frontend-Template/Frontend-Template", "React Frontend",
        "scripts/setup-project.js"⟩ demoCopied (by decide) (by decide) (by decide) (by decide)
      (by decide) (by decide) (by decide)).elim (fun _ h => h.2.1)⟩

/-- C7, as stated, fails for a setup script that removes the directory the
process was started in: the change to the destination and the command take
place, the restoring `process.chdir(originalDir)` throws, and the process ends
with its working directory still at the destination `/srv/my-app`, not at
`/home` where it started. -/
theorem working_directory_not_restored_counterexample :
    demoProc.cwd = ["home"] ∧
    (main ⟨["opt"], scrubbingRun⟩ 7 ["frontend", "my-app", "/srv"] demoProc).proc.map
        (fun w1 => actions w1.trace) =
      some [Event.copy ["opt", "Frontend-Template", "Frontend-Template"] ["srv", "my-app"],
        Event.chdir ["srv", "my-app"],
        Event.exec "node scripts/setup-project.js my-app" ["srv", "my-app"]] ∧
    (main ⟨["opt"], scrubbingRun⟩ 7 ["frontend", "my-app", "/srv"] demoProc).proc.map
        (fun w1 => w1.cwd) = some ["srv", "my-app"] := by
  refine ⟨rfl, by decide, by decide⟩

/-- C7, as amended: when `main` gets through the copy, its actions after those
before the call are, in order: the copy; then, if the setup script exists in the
copy and the directory from before is still a directory once the script has
ended, the change to the destination directory, the command run with the
destination as working directory, and the change back to the directory from
before; and, if the script does not exist, nothing more.  In both cases the
working directory at the end is the one from before. -/
theorem working_directory_restored (env : Env) (fuel : Nat) (t name : String)
    (rest : List String) (w : Proc) (tpl : Template) (fs1 : Tree)
    (hn : matchesNamePattern name = true) (hl : TEMPLATES.lookup t = some tpl)
    (hsrc : existsSync (pathJoin env.rootDir tpl.source) w.fs = true)
    (hdst : existsSync (pathResolve w.cwd (destinationOf rest) name) w.fs = false)
    (hcopy : copyDir fuel (pathJoin env.rootDir tpl.source)
      (pathResolve w.cwd (destinationOf rest) name) w.fs = some (CopyResult.done fs1))
    (horig : existsSync
        (pathJoin (pathResolve w.cwd (destinationOf rest) name) tpl.setupScript) fs1 = true →
      isDirectory w.cwd
        (env.run (setupCommand tpl name) (pathResolve w.cwd (destinationOf rest) name) fs1).2 =
          true) :
    ∃ w1, main env fuel (t :: name :: rest) w = Step.ok () w1 ∧ w1.cwd = w.cwd ∧
      actions w1.trace =
        actions w.trace ++
          Event.copy (pathJoin env.rootDir tpl.source)
            (pathResolve w.cwd (destinationOf rest) name) ::
          (if existsSync
              (pathJoin (pathResolve w.cwd (destinationOf rest) name) tpl.setupScript) fs1 then
            [Event.chdir (pathResolve w.cwd (destinationOf rest) name),
             Event.exec (setupCommand tpl name) (pathResolve w.cwd (destinationOf rest) name),
             Event.chdir w.cwd]
           else []) := by
  have hm := main_copy_done env fuel t name rest w tpl fs1 hn hl hsrc hdst hcopy
  have hacwd := announceCopy_cwd tpl name (pathJoin env.rootDir tpl.source)
    (pathResolve w.cwd (destinationOf rest) name) w
  have hact := announceCopy_actions tpl name (pathJoin env.rootDir tpl.source)
    (pathResolve w.cwd (destinationOf rest) name) w
  cases hs : existsSync
      (pathJoin (pathResolve w.cwd (destinationOf rest) name) tpl.setupScript) fs1 with
  | true =>
      have hdir := isDirectory_dest t tpl _ fs1 hl hs
      rw [afterCopy_with_script env t name tpl _ _ hs hdir (horig hs)] at hm
      refine ⟨_, hm, ?_, ?_⟩
      · rw [closing_cwd, setupDone_cwd]
        exact hacwd
      · rw [closing_actions, setupDone_actions, actions_log]
        simp only [Proc.setFs, log_cwd_eq, hact, hacwd]
        simp
  | false =>
      rw [afterCopy_without_script env t name tpl _ _ hs] at hm
      refine ⟨_, hm, ?_, ?_⟩
      · rw [closing_cwd]
        exact hacwd
      · rw [closing_actions, actions_log]
        simp only [Proc.setFs, hact]
        simp

/-- C7, on the small installation: the setup script runs in `/home/out/my-app`
and the process ends in `/home`. -/
theorem working_directory_restored_witness :
    (matchesNamePattern "my-app" = true ∧
      existsSync (pathJoin ["opt"] "Frontend-Template/Frontend-Template") demoFs = true ∧
      existsSync (pathResolve ["home"] "./out" "my-app") demoFs = false ∧
      isDirectory ["home"] demoCopied = true) ∧
    ∃ w1, main demoEnv 7 ["frontend", "my-app", "./out"] demoProc = Step.ok () w1 ∧
      w1.cwd = ["home"] ∧
      actions w1.trace =
        [Event.copy ["opt", "Frontend-Template", "Frontend-Template"] ["home", "out", "my-app"],
         Event.chdir ["home", "out", "my-app"],
         Event.exec "node scripts/setup-project.js my-app" ["home", "out", "my-app"],
         Event.chdir ["home"]] :=
  ⟨⟨by decide, by decide, by decide, by decide⟩,
    working_directory_restored demoEnv 7 "frontend" "my-app" ["./out"] demoProc
      ⟨"Frontend-Template/Frontend-Template", "React Frontend", "scripts/setup-project.js"⟩
      demoCopied (by decide) (by decide) (by decide) (by decide) (by decide)
      (fun _ => by decide)⟩

/-- C8: for every entry of the template registry and every validated project
name, the command run for the setup script is the interpreter (`python` when the
script path ends with `.py`, `node` otherwise), the script path and the project
name, separated by single spaces; it splits on spaces into exactly these three
tokens, and no character of the project name is white space or special to the
shell. -/
theorem setupCommand_three_tokens (t : String) (tpl : Template) (name : String)
    (hl : TEMPLATES.lookup t = some tpl) (hn : matchesNamePattern name = true) :
    setupCommand tpl name =
      (if endsWith tpl.setupScript ".py" then "python" else "node") ++ " " ++
        tpl.setupScript ++ " " ++ name ∧
    splitOn ' ' (setupCommand tpl name).toList =
      [(if endsWith tpl.setupScript ".py" then "python" else "node").toList,
       tpl.setupScript.toList, name.toList] ∧
    ∀ c ∈ name.toList, c ∉ shellSpecial := by
  have hspecial : ∀ c ∈ name.toList, c ∉ shellSpecial :=
    fun c hc => name_char_not_special c (name_chars name hn c hc)
  have hspace : ' ' ∉ name.toList := fun h => hspecial ' ' h (by decide)
  have hcmd : setupCommand tpl name =
      (if endsWith tpl.setupScript ".py" then "python" else "node") ++ " " ++
        tpl.setupScript ++ " " ++ name := by
    unfold setupCommand
    split <;> rfl
  refine ⟨hcmd, ?_, hspecial⟩
  rw [hcmd]
  rcases templates_lookup_cases t tpl hl with ⟨-, rfl⟩ | ⟨-, rfl⟩ | ⟨-, rfl⟩
  · exact command_tokens _ _ name (by decide) (by decide) hspace
  · exact command_tokens _ _ name (by decide) (by decide) hspace
  · exact command_tokens _ _ name (by decide) (by decide) hspace

/-- C8, for the Python template and the name `ml-service`. -/
theorem setupCommand_three_tokens_witness :
    (TEMPLATES.lookup "backend-python" =
        some ⟨"Backend_python-Template", "Python Backend", "scripts/setup_project.py"⟩ ∧
      matchesNamePattern "ml-service" = true) ∧
    setupCommand ⟨"Backend_python-Template", "Python Backend", "scripts/setup_project.py"⟩
        "ml-service" =
      "python" ++ " " ++ "scripts/setup_project.py" ++ " " ++ "ml-service" :=
  ⟨⟨by decide, by decide⟩,
    (setupCommand_three_tokens "backend-python"
      ⟨"Backend_python-Template", "Python Backend", "scripts/setup_project.py"⟩ "ml-service"
      (by decide) (by decide)).1⟩

end CreateProject
